import Mathlib

/-!
Verification of the pydantic2zod parser (`pydantic2zod/_parser.py`) against its
natural-language specification.  The Python source is shallowly embedded below:
pure functions become Lean functions, fatal failures (`assert`, `ensure_type`,
`KeyError`, unbounded recursion) become `Except String` errors, and the
concrete-syntax-tree fragment the parser understands becomes the inductive
`Expr`.
-/

set_option maxRecDepth 4000

namespace Pydantic2zod

/-- Modelled from the spec: the closed `PyType` variant set (spec section 3).
The source file `_model.py` is not among the given sources, so the variant
shapes follow the spec's words.  `literal` carries both an optional literal
value and an optional wrapped type: the spec (section 9) notes that the
source's literal variant wraps either a value or a type in different code
paths, so both are modelled as optional fields, `none` being the default the
parser leaves untouched. -/
inductive PyType where
  | primitive (name : String)
  | builtin (name : String)
  | generic (generic : String) (type_vars : List PyType)
  | union (types : List PyType)
  | literal (value : Option String) (type : Option PyType)
  | tuple (types : List PyType)
  | userDefined (name : String)

/-- Modelled from the spec: the closed `PyValue` variant set (spec section 3):
string literal, none/null and the opaque unparsed-mapping placeholder. -/
inductive PyValue where
  | pyString (value : String)
  | pyNone
  | pyDict
deriving DecidableEq

/-- Modelled from the spec: a class field (spec section 3); `_model.py` is not
among the given sources. -/
structure ClassField where
  name : String
  type : PyType
  default_value : Option PyValue
  comment : Option String

/-- Modelled from the spec: a class declaration (spec section 3); `_model.py`
is not among the given sources. -/
structure ClassDecl where
  name : String
  base_classes : List String
  fields : List ClassField
  comment : Option String

/-- The binary operators distinguished by the parser: `_extract_union` accepts
exactly `cst.BitOr`; `add` stands for every other operator kind. -/
inductive BinOp where
  | bitOr
  | add
deriving DecidableEq

/-- The fragment of the libcst expression tree the parser walks: simple names,
attribute access, subscripts (each element standing for an `Index` slice),
binary operations, string literals (raw text, quotes included, as in
`cst.SimpleString.value`), integer literals and dict literals. -/
inductive Expr where
  | name (value : String)
  | attrAccess (obj : Expr) (attrName : String)
  | subscript (base : Expr) (elems : List Expr)
  | binop (op : BinOp) (left : Expr) (right : Expr)
  | simpleString (raw : String)
  | intLit (value : Int)
  | dictLit

/-- Every expression node has positive size (used for termination measures). -/
theorem expr_sizeOf_pos (e : Expr) : 0 < sizeOf e := by
  cases e <;> simp_arith

/-- Every type node has positive size (used for termination measures). -/
theorem pytype_sizeOf_pos (t : PyType) : 0 < sizeOf t := by
  cases t <;> simp_arith

/-- Python `dict` lookup over an association list in insertion order; later
insertions win, matching `dict.__setitem__` / `|=` semantics. -/
def dictGet {β : Type} : List (String × β) → String → Option β
  | [], _ => none
  | p :: ps, k =>
    match dictGet ps k with
    | some v => some v
    | none => if p.1 = k then some p.2 else none

/-- `_parser._primitive_or_user_defined_type`: fixed primitive and container
name sets, everything else a user-defined reference. -/
def primitive_or_user_defined_type (type_name : String) : PyType :=
  if type_name = "str" ∨ type_name = "bytes" ∨ type_name = "bool" ∨ type_name = "int"
      ∨ type_name = "float" ∨ type_name = "None" then
    .primitive type_name
  else if type_name = "dict" ∨ type_name = "Dict" then
    .builtin "dict"
  else if type_name = "list" ∨ type_name = "List" then
    .builtin "list"
  else
    .userDefined type_name

/-- Python `str.replace` of every double-quote character by the empty string,
as in `value.replace(chr(34), emptyStr)`. -/
def removeDquotes (s : String) : String :=
  ⟨s.data.filter (fun c => c ≠ '"')⟩

/-- The element loop of `_parser._parse_literal`: every subscript element must
be a `cst.SimpleString` (otherwise `ensure_type` raises), and its raw text has
every double-quote character removed. -/
def parse_literal_values : List Expr → Except String (List String)
  | [] => .ok []
  | .simpleString raw :: rest => do
    let vs ← parse_literal_values rest
    .ok (removeDquotes raw :: vs)
  | _ :: _ => .error "ensure_type SimpleString"

/-- `_parser._parse_literal`: one value gives a literal type, any other count
gives a union of single-value literal types. -/
def parse_literal (elems : List Expr) : Except String PyType := do
  let vs ← parse_literal_values elems
  match vs with
  | [v] => .ok (.literal (some v) none)
  | _ => .ok (.union (vs.map (fun v => PyType.literal (some v) none)))

mutual

/-- `_parser._extract_type`: dispatch on the node kind; any other node kind is
a fatal assertion failure. -/
def extract_type : Expr → Except String PyType
  | .name v => .ok (primitive_or_user_defined_type v)
  | .subscript b es => parse_generic_type b es
  | .binop .bitOr l r => extract_union l r
  | .binop _ _ _ => .error "ensure_type BitOr"
  | _ => .error "Unexpected node in type definition"
termination_by e => sizeOf e
decreasing_by all_goals (simp_wf; try omega)

/-- `_parser._parse_generic_type`: the subscript base must be a simple name
(`ensure_type`), then dispatch on the recognized generic names; any other name
is a fatal assertion failure. -/
def parse_generic_type (base : Expr) (elems : List Expr) : Except String PyType :=
  match base with
  | .name "Literal" => parse_literal elems
  | .name "list" => do
    let ts ← parse_types_list elems
    .ok (.generic "list" ts)
  | .name "List" => do
    let ts ← parse_types_list elems
    .ok (.generic "list" ts)
  | .name "dict" => do
    let ts ← parse_types_list elems
    .ok (.generic "dict" ts)
  | .name "Dict" => do
    let ts ← parse_types_list elems
    .ok (.generic "dict" ts)
  | .name "Union" => do
    let ts ← parse_types_list elems
    .ok (.union ts)
  | .name "Optional" => do
    let ts ← parse_types_list elems
    .ok (.union (ts ++ [.primitive "None"]))
  | .name "tuple" => do
    let ts ← parse_types_list elems
    .ok (.tuple ts)
  | .name "Tuple" => do
    let ts ← parse_types_list elems
    .ok (.tuple ts)
  | .name _ => .error "Unexpected generic type"
  | _ => .error "ensure_type Name"
termination_by sizeOf base + sizeOf elems
decreasing_by all_goals (simp_wf; try omega)

/-- `_parser._parse_types_list`: each element (an `Index` slice) is either a
simple name, resolved directly, or recursively extracted. -/
def parse_types_list : List Expr → Except String (List PyType)
  | [] => .ok []
  | e :: rest => do
    let t ← (match e with
      | .name v => .ok (primitive_or_user_defined_type v)
      | other => extract_type other)
    let ts ← parse_types_list rest
    .ok (t :: ts)
termination_by es => sizeOf es
decreasing_by all_goals (simp_wf; try omega)

/-- `_parser._extract_union` after the `ensure_type BitOr` check: both operands
are extracted recursively and union operands are spliced in one level. -/
def extract_union (left right : Expr) : Except String PyType := do
  let l ← extract_type left
  let r ← extract_type right
  let ltypes := match l with | .union ts => ts | t => [t]
  let rtypes := match r with | .union ts => ts | t => [t]
  .ok (.union (ltypes ++ rtypes))
termination_by 1 + sizeOf left + sizeOf right
decreasing_by all_goals (simp_wf; try omega)

end

/-- `_parser._parse_value`: a total match; the boolean records whether the
non-fatal "Unsupported value type" warning was logged. -/
def parse_value : Expr → PyValue × Bool
  | .simpleString raw => (.pyString (removeDquotes raw), false)
  | .name "None" => (.pyNone, false)
  | .dictLit => (.pyDict, false)
  | _ => (.pyNone, true)

/-- The base-class loop of `_parser._ParseModule._is_pydantic_model`: the first
base declared locally decides the result (the loop returns on it). -/
def first_local_base (classes : List (String × ClassDecl)) : List String → Option ClassDecl
  | [] => none
  | b :: bs =>
    match dictGet classes b with
    | some cls => some cls
    | none => first_local_base classes bs

/-- `_parser._ParseModule._is_pydantic_model`.  The unguarded
`self._imports[str]` dict lookup becomes an `Except` error (Python raises
`KeyError`), and the unbounded Python recursion carries explicit fuel, running
out being Python's `RecursionError`. -/
def is_pydantic_model (classes : List (String × ClassDecl))
    (imports : List (String × String)) : Nat → ClassDecl → Except String Bool
  | 0, _ => .error "RecursionError"
  | fuel + 1, cls =>
    if "BaseModel" ∈ cls.base_classes then
      match dictGet imports "BaseModel" with
      | none => .error "KeyError: BaseModel"
      | some from_module =>
        if from_module = "pydantic" then .ok true
        else
          match first_local_base classes cls.base_classes with
          | some cls2 => is_pydantic_model classes imports fuel cls2
          | none => .ok false
    else
      match first_local_base classes cls.base_classes with
      | some cls2 => is_pydantic_model classes imports fuel cls2
      | none => .ok false

mutual

/-- `_parser._get_user_defined_types`: user-defined names collected through
union members, the literal-wrapped type and generic type arguments; every
other variant (tuples included) contributes nothing. -/
def get_user_defined_types : PyType → List String
  | .userDefined n => [n]
  | .union ts => get_user_defined_types_list ts
  | .literal _ (some t) => get_user_defined_types t
  | .generic _ ts => get_user_defined_types_list ts
  | _ => []
termination_by t => sizeOf t
decreasing_by all_goals (simp_wf; try omega)

/-- The `chain(*[...])` flattening inside `_get_user_defined_types`. -/
def get_user_defined_types_list : List PyType → List String
  | [] => []
  | t :: ts => get_user_defined_types t ++ get_user_defined_types_list ts
termination_by ts => sizeOf ts
decreasing_by all_goals (simp_wf; try omega)

end

/-- `_parser._ParseModule._class_deps`: base classes other than the literal
name BaseModel, then the user-defined names of every field's type. -/
def class_deps (cls : ClassDecl) : List String :=
  cls.base_classes.filter (fun c => c ≠ "BaseModel") ++
    (cls.fields.map (fun f => get_user_defined_types f.type)).flatten

/-- The alias-resolution step of `_parser._ParseModule._finish_parsing_class`:
only a field whose type is directly a `UserDefinedType` naming a recorded
alias is rewritten; `assert node.value` on a valueless alias declaration is a
fatal error. -/
def resolve_field_alias (alias_nodes : List (String × Option Expr)) (f : ClassField) :
    Except String ClassField :=
  match f.type with
  | .userDefined n =>
    match dictGet alias_nodes n with
    | some (some rhs) => do
      let t ← extract_type rhs
      .ok (ClassField.mk f.name t f.default_value f.comment)
    | some none => .error "assert node.value"
    | none => .ok f
  | _ => .ok f

/-- The field loop of `_parser._ParseModule._finish_parsing_class` over a
class's freshly parsed fields. -/
def finish_parsing_class_fields (alias_nodes : List (String × Option Expr))
    (fields : List ClassField) : Except String (List ClassField) :=
  fields.mapM (resolve_field_alias alias_nodes)

/-- Leading-dot count of a relative module name, as in
`importlib.util.resolve_name`. -/
def countLeadingDots : List Char → Nat
  | '.' :: rest => countLeadingDots rest + 1
  | _ => 0

/-- Python `str.split` on the dot separator, over the character list; the
accumulator holds the current component reversed. -/
def splitDotAux : List Char → List Char → List String
  | [], acc => [String.mk acc.reverse]
  | c :: rest, acc =>
    if c = '.' then String.mk acc.reverse :: splitDotAux rest []
    else splitDotAux rest (c :: acc)

/-- Python `str.split` on the dot separator. -/
def splitDot (s : String) : List String :=
  splitDotAux s.data []

/-- Python `sep.join` for the dot separator. -/
def joinDots : List String → String
  | [] => ""
  | [x] => x
  | x :: xs => x ++ "." ++ joinDots xs

/-- Python `str.startswith` for the dot prefix. -/
def startsWithDot (s : String) : Bool :=
  match s.data with
  | '.' :: _ => true
  | _ => false

/-- Python `str.rsplit` on the dot separator with a maximum split count. -/
def rsplitDot (s : String) (maxsplit : Nat) : List String :=
  let parts := splitDot s
  if parts.length ≤ maxsplit then parts
  else
    (joinDots (parts.take (parts.length - maxsplit))) ::
      parts.drop (parts.length - maxsplit)

/-- `importlib.util.resolve_name`: an absolute name is returned unchanged; a
relative name needs a package context and strips one package component per
extra leading dot, `ImportError`s becoming `Except` errors. -/
def resolve_name (nm : String) (package : Option String) : Except String String :=
  if startsWithDot nm = false then .ok nm
  else
    match package with
    | none => .error "ImportError: no known parent package"
    | some pkg =>
      if pkg = "" then .error "ImportError: no known parent package"
      else
        let level := countLeadingDots nm.data
        let rest : String := ⟨nm.data.drop level⟩
        let bits := rsplitDot pkg (level - 1)
        if bits.length < level then .error "ImportError: beyond top-level package"
        else
          match bits with
          | [] => .error "ImportError: beyond top-level package"
          | base :: _ => if rest = "" then .ok base else .ok (base ++ "." ++ rest)

/-- The per-name body of `_parser._ParseModule.external_models`: the import
table gives the origin module, `resolve_name` absolutizes it against the
parsing module's package, and the class name is appended. -/
def fq_model_path (imports : List (String × String)) (package : Option String)
    (n : String) : Except String String :=
  match dictGet imports n with
  | none => .error "KeyError"
  | some from_module => do
    let abs_module ← resolve_name from_module package
    .ok (abs_module ++ "." ++ n)

/-- `_parser._ParseModule.external_models`: every external dependency's
fully-qualified path, the two well-known non-model paths dropped. -/
def external_models (imports : List (String × String)) (package : Option String) :
    List String → Except String (List String)
  | [] => .ok []
  | n :: ns => do
    let fq ← fq_model_path imports package n
    let rest ← external_models imports package ns
    if fq = "uuid.UUID" ∨ fq = "pydantic.BaseModel" then .ok rest else .ok (fq :: rest)

/-- A `networkx.DiGraph` as `parse` builds it: nodes in insertion order and
directed edges in insertion order. -/
structure Graph where
  nodes : List String
  edges : List (String × String)

/-- Successors of a node in edge-insertion order, as iterating a
`networkx.DiGraph` adjacency does. -/
def adjOf (es : List (String × String)) (u : String) : List String :=
  (es.filter (fun e => e.1 = u)).map (fun e => e.2)

/-- Depth-first visit of one node for `networkx.dfs_postorder_nodes`: the state
is the visited list and the postorder output; a node is marked before its
successors are explored in order and emitted after them.  The fuel makes the
recursion structural; the traversal never exhausts it (the graph is finite). -/
def dfsNode (adj : String → List String) : Nat → String → (List String × List String) →
    (List String × List String)
  | 0, _, s => s
  | f + 1, u, s =>
    if u ∈ s.1 then s
    else
      let t := (adj u).foldl (fun acc v => dfsNode adj f v acc) (u :: s.1, s.2)
      (t.1, t.2 ++ [u])

/-- Depth-first visit of a list of start nodes sharing one visited set. -/
def dfsList (adj : String → List String) (f : Nat) : List String →
    (List String × List String) → (List String × List String)
  | [], s => s
  | u :: us, s => dfsList adj f us (dfsNode adj f u s)

/-- `networkx.dfs_postorder_nodes(G)` with no source: a postorder depth-first
traversal started from every graph node in order, sharing one visited set. -/
def dfsPostorderNodes (g : Graph) : List String :=
  (dfsList (adjOf g.edges) (g.nodes.length + 1) g.nodes ([], [])).2

/-- The dict comprehension in `parse` keying the parsed models by name (later
duplicates win, as in a Python dict). -/
def models_by_name (cs : List ClassDecl) : List (String × ClassDecl) :=
  cs.map (fun c => (c.name, c))

/-- `_parser.parse`, given the dependency graph and model list produced by the
recursive `_parse` walk: the postorder node sequence filtered to the
fully-extracted models. -/
def parse (g : Graph) (pydantic_models : List ClassDecl) : List ClassDecl :=
  (dfsPostorderNodes g).filterMap (fun n => dictGet (models_by_name pydantic_models) n)

/-! ### Claim-side notions

The definitions below follow the words of the specification (never the
source); they are compared with the source-side definitions above. -/

/-- Claim-side, spec section 4.5: a user-defined name reachable from a type by
recursing only through union members, the literal-wrapped type, and generic
type-argument positions — tuple positions deliberately absent. -/
inductive ReachUD : PyType → String → Prop where
  | self (n : String) : ReachUD (.userDefined n) n
  | unionMem {t : PyType} {ts : List PyType} {n : String} :
      t ∈ ts → ReachUD t n → ReachUD (.union ts) n
  | literalWrapped {v : Option String} {t : PyType} {n : String} :
      ReachUD t n → ReachUD (.literal v (some t)) n
  | genericArg {g : String} {t : PyType} {ts : List PyType} {n : String} :
      t ∈ ts → ReachUD t n → ReachUD (.generic g ts) n

/-- Whether a type is a `UnionType` at its root. -/
def isUnionTy : PyType → Bool
  | .union _ => true
  | _ => false

/-- Whether a type is a `UserDefinedType` at its root. -/
def isUserDefinedTy : PyType → Bool
  | .userDefined _ => true
  | _ => false

mutual

/-- Claim-side, spec section 3: whether somewhere in the type tree a
`UnionType` has a member that is itself a `UnionType`. -/
def hasNestedUnion : PyType → Bool
  | .union ts => hasNestedUnionMem ts
  | .generic _ ts => hasNestedUnionList ts
  | .tuple ts => hasNestedUnionList ts
  | .literal _ (some t) => hasNestedUnion t
  | _ => false
termination_by t => sizeOf t
decreasing_by all_goals (simp_wf; try omega)

/-- Nested-union check over the member list of a union: a member that is
itself a union counts, as does deeper nesting. -/
def hasNestedUnionMem : List PyType → Bool
  | [] => false
  | t :: ts => isUnionTy t || hasNestedUnion t || hasNestedUnionMem ts
termination_by ts => sizeOf ts
decreasing_by all_goals (simp_wf; try omega)

/-- Nested-union check over type arguments that are not union members. -/
def hasNestedUnionList : List PyType → Bool
  | [] => false
  | t :: ts => hasNestedUnion t || hasNestedUnionList ts
termination_by ts => sizeOf ts
decreasing_by all_goals (simp_wf; try omega)

end

/-- Whether extracting an expression succeeds with a `UnionType` root. -/
def isUnionResult (e : Expr) : Bool :=
  match extract_type e with
  | .ok (.union _) => true
  | _ => false

mutual

/-- The hypothesis under which the no-nested-union invariant holds: every
subscript argument of a `Union`/`Optional` subscript extracts to a non-union
type.  Chained binary or-unions stay unrestricted. -/
def unionArgsFlat : Expr → Bool
  | .subscript (.name "Union") es => unionSubArgsFlat es
  | .subscript (.name "Optional") es => unionSubArgsFlat es
  | .subscript _ es => unionArgsFlatList es
  | .binop _ l r => unionArgsFlat l && unionArgsFlat r
  | _ => true
termination_by e => sizeOf e
decreasing_by all_goals (simp_wf; try omega)

/-- `unionArgsFlat` over `Union`/`Optional` subscript arguments: besides the
recursive condition, each argument must not extract to a union. -/
def unionSubArgsFlat : List Expr → Bool
  | [] => true
  | e :: es => !(isUnionResult e) && unionArgsFlat e && unionSubArgsFlat es
termination_by es => sizeOf es
decreasing_by all_goals (simp_wf; try omega)

/-- `unionArgsFlat` over the arguments of other subscripts. -/
def unionArgsFlatList : List Expr → Bool
  | [] => true
  | e :: es => unionArgsFlat e && unionArgsFlatList es
termination_by es => sizeOf es
decreasing_by all_goals (simp_wf; try omega)

end

/-- The recognized generic base identifiers of `_parse_generic_type`. -/
def recognized_generic_name (s : String) : Bool :=
  s == "Literal" || s == "list" || s == "List" || s == "dict" || s == "Dict" || s == "Union"
    || s == "Optional" || s == "tuple" || s == "Tuple"

/-- Claim-side, spec section 4.4: "a subscripted generic with a recognized
base identifier". -/
def recognizedGenericSubscript : Expr → Bool
  | .subscript (.name b) _ => recognized_generic_name b
  | _ => false

/-- Whether an expression node is a string literal. -/
def isSimpleStringE : Expr → Bool
  | .simpleString _ => true
  | _ => false

mutual

/-- Claim-side (amended grammar): the expressions the type extractor accepts,
read recursively: a simple identifier; a `Literal` subscript whose arguments
are all string literals; another recognized-base subscript whose arguments are
all accepted; a binary or-union of accepted operands. -/
def accepted : Expr → Bool
  | .name _ => true
  | .subscript (.name "Literal") es => es.all isSimpleStringE
  | .subscript (.name b) es => recognized_generic_name b && acceptedList es
  | .binop .bitOr l r => accepted l && accepted r
  | _ => false
termination_by e => sizeOf e
decreasing_by all_goals (simp_wf; try omega)

/-- `accepted` over a subscript's argument list. -/
def acceptedList : List Expr → Bool
  | [] => true
  | e :: es => accepted e && acceptedList es
termination_by es => sizeOf es
decreasing_by all_goals (simp_wf; try omega)

end

/-- Whether `_extract_type` succeeds on an expression. -/
def extractOk (e : Expr) : Bool :=
  (extract_type e).toOption.isSome

/-- The expressions `_parse_value` handles without the warning diagnostic. -/
def parse_value_supported : Expr → Bool
  | .simpleString _ => true
  | .name v => v == "None"
  | .dictLit => true
  | _ => false

/-- A single-quoted string literal's raw text, `chr(39)` being the single
quote character. -/
def squoteA : String := ⟨[Char.ofNat 39, 'a', Char.ofNat 39]⟩

/-! ### General lemmas -/

theorem dictGet_mem {β : Type} {l : List (String × β)} {k : String} {v : β}
    (h : dictGet l k = some v) : (k, v) ∈ l := by
  induction l with
  | nil => exact absurd h (by simp [dictGet])
  | cons p ps ih =>
    rw [dictGet] at h
    cases hps : dictGet ps k with
    | some w =>
      rw [hps] at h
      injection h with hv
      subst hv
      exact List.mem_cons_of_mem _ (ih hps)
    | none =>
      rw [hps] at h
      by_cases hk : p.1 = k
      · rw [if_pos hk] at h
        injection h with hv
        have hp : p = (k, v) := by
          cases p
          simp only at hk hv
          simp [hk, hv]
        rw [← hp]
        exact List.mem_cons_self p ps
      · rw [if_neg hk] at h
        exact absurd h (by simp)

theorem dictGet_models_name {cs : List ClassDecl} {n : String} {c : ClassDecl}
    (h : dictGet (models_by_name cs) n = some c) : c.name = n := by
  have hm := dictGet_mem h
  rw [models_by_name] at hm
  simp only [List.mem_map] at hm
  obtain ⟨c2, _, h2⟩ := hm
  obtain ⟨hn, hc⟩ := Prod.mk.injEq .. |>.mp h2
  rw [← hc, hn]

theorem extract_type_name (v : String) :
    extract_type (.name v) = .ok (primitive_or_user_defined_type v) := by
  simp [extract_type]

theorem extract_type_none : extract_type (.name "None") = .ok (.primitive "None") := by
  rw [extract_type_name]
  rfl

theorem extract_type_subscript (b : Expr) (es : List Expr) :
    extract_type (.subscript b es) = parse_generic_type b es := by
  simp [extract_type]

theorem extract_type_bitor (l r : Expr) :
    extract_type (.binop .bitOr l r) = extract_union l r := by
  simp [extract_type]

theorem parse_types_list_cons (e : Expr) (rest : List Expr) :
    parse_types_list (e :: rest) =
      (do
        let t ← extract_type e
        let ts ← parse_types_list rest
        Except.ok (t :: ts)) := by
  cases e <;> simp [parse_types_list, extract_type_name]

theorem parse_types_list_nil : parse_types_list [] = .ok [] := by
  simp [parse_types_list]

/-! ### C7: the default-value parser -/

/-- C7 counterexample: a single-quoted string literal keeps its quote
characters — `_parse_value` removes only double-quote characters, so the
claim's "quote characters stripped" fails on `chr(39) a chr(39)`. -/
theorem parse_value_keeps_single_quotes :
    parse_value (.simpleString squoteA) = (.pyString squoteA, false) ∧ squoteA ≠ "a" := by
  constructor
  · decide
  · decide

/-- C7 (amended): the default-value parser is total and never aborts: a
double-quoted string literal yields the string value with every double-quote
character removed (other quote styles are left as they are); the bare `None`
identifier yields the null value; a dict literal yields the opaque
placeholder; every other expression yields the null value together with the
non-fatal "Unsupported value type" diagnostic. -/
theorem parse_value_cases :
    (∀ c : String, '"' ∉ c.data →
        parse_value (.simpleString ⟨'"' :: (c.data ++ ['"'])⟩) = (.pyString c, false)) ∧
    parse_value (.name "None") = (.pyNone, false) ∧
    parse_value .dictLit = (.pyDict, false) ∧
    (∀ raw, parse_value (.simpleString raw) = (.pyString (removeDquotes raw), false)) ∧
    (∀ e, parse_value_supported e = false → parse_value e = (.pyNone, true)) := by
  refine ⟨?_, rfl, rfl, fun _ => rfl, ?_⟩
  · intro c hc
    have hfilter : (('"' :: (c.data ++ ['"'])).filter (fun ch => ch ≠ '"')) = c.data := by
      rw [List.filter_cons_of_neg (by simp), List.filter_append]
      rw [List.filter_cons_of_neg (by simp), List.filter_nil, List.append_nil]
      exact List.filter_eq_self.mpr (fun a ha => by
        simp only [ne_eq, decide_eq_true_eq]
        intro hq
        exact hc (hq ▸ ha))
    show (PyValue.pyString (removeDquotes ⟨'"' :: (c.data ++ ['"'])⟩), false) = _
    rw [removeDquotes]
    simp only [hfilter]
  · intro e he
    cases e with
    | name v =>
      rw [parse_value_supported] at he
      rw [parse_value.eq_def]
      split
      · simp_all
      · rename_i heq
        injection heq with hv
        rw [← hv] at he
        simp at he
      · simp_all
      · rfl
    | simpleString raw => simp [parse_value_supported] at he
    | dictLit => simp [parse_value_supported] at he
    | _ => rfl

/-- C7 witness: the amended theorem applied to the double-quoted literal
`"hi"`. -/
theorem parse_value_cases_witness :
    ('"' ∉ ("hi" : String).data) ∧
      parse_value (.simpleString ⟨'"' :: (("hi" : String).data ++ ['"'])⟩) =
        (.pyString "hi", false) := by
  refine ⟨by decide, parse_value_cases.1 "hi" (by decide)⟩

/-! ### C4: `Optional[T]`, `T | None`, `Union[T, None]` -/

theorem pgt_optional (es : List Expr) :
    parse_generic_type (.name "Optional") es =
      (do
        let ts ← parse_types_list es
        Except.ok (.union (ts ++ [.primitive "None"]))) := by
  simp [parse_generic_type]

theorem pgt_union (es : List Expr) :
    parse_generic_type (.name "Union") es =
      (do
        let ts ← parse_types_list es
        Except.ok (.union ts)) := by
  simp [parse_generic_type]

theorem extract_union_eq (l r : Expr) :
    extract_union l r =
      (do
        let lt ← extract_type l
        let rt ← extract_type r
        Except.ok (.union
          ((match lt with | .union ts => ts | t => [t]) ++
            (match rt with | .union ts => ts | t => [t])))) := by
  rw [extract_union]

theorem nonunion_splice {t : PyType} (h : isUnionTy t = false) :
    (match t with | PyType.union ts => ts | t => [t]) = [t] := by
  cases t <;> first | rfl | (rw [isUnionTy] at h; exact Bool.noConfusion h)

/-- C4 counterexample: member order in the source expression is preserved, so
a `None`-first spelling gives a different `UnionType` than `Optional[int]`;
and a `T` that itself extracts to a union is spliced by the or-operator but
kept nested by `Optional`, so those two spellings differ as well. -/
theorem union_spelling_counterexample :
    extract_type (.subscript (.name "Union") [.name "None", .name "int"]) =
      .ok (.union [.primitive "None", .primitive "int"]) ∧
    extract_type (.subscript (.name "Optional") [.name "int"]) =
      .ok (.union [.primitive "int", .primitive "None"]) ∧
    (PyType.union [.primitive "None", .primitive "int"] ≠
      .union [.primitive "int", .primitive "None"]) ∧
    extract_type (.binop .bitOr (.subscript (.name "Union") [.name "int", .name "str"])
        (.name "None")) =
      .ok (.union [.primitive "int", .primitive "str", .primitive "None"]) ∧
    extract_type (.subscript (.name "Optional")
        [.subscript (.name "Union") [.name "int", .name "str"]]) =
      .ok (.union [.union [.primitive "int", .primitive "str"], .primitive "None"]) ∧
    (PyType.union [.union [.primitive "int", .primitive "str"], .primitive "None"] ≠
      .union [.primitive "int", .primitive "str", .primitive "None"]) := by
  refine ⟨?_, ?_, by simp, ?_, ?_, by simp⟩ <;>
    (simp only [extract_type, parse_generic_type, parse_types_list, extract_union,
      primitive_or_user_defined_type]; rfl)

/-- C4 (amended): for every `T` whose extraction is not itself a union, the
three spellings `Optional[T]`, `T | None` and `Union[T, None]` — `T` written
first — extract to the identical `UnionType` with members exactly `T`'s
extraction followed by the none-primitive.  (Member order in the source is
preserved in the output, and a union-valued `T` is spliced by the or-operator
but kept nested by `Optional`/`Union`, hence both restrictions.) -/
theorem optional_pipe_union_agree (T : Expr) (t : PyType)
    (hT : extract_type T = .ok t) (hnu : isUnionTy t = false) :
    extract_type (.subscript (.name "Optional") [T]) =
        .ok (.union [t, .primitive "None"]) ∧
    extract_type (.binop .bitOr T (.name "None")) =
        .ok (.union [t, .primitive "None"]) ∧
    extract_type (.subscript (.name "Union") [T, .name "None"]) =
        .ok (.union [t, .primitive "None"]) := by
  have h1 : parse_types_list [T] = .ok [t] := by
    rw [parse_types_list_cons, hT, parse_types_list_nil]
    rfl
  have h2 : parse_types_list [T, .name "None"] = .ok [t, .primitive "None"] := by
    rw [parse_types_list_cons, hT]
    rw [parse_types_list_cons, extract_type_none, parse_types_list_nil]
    rfl
  refine ⟨?_, ?_, ?_⟩
  · rw [extract_type_subscript, pgt_optional, h1]
    rfl
  · rw [extract_type_bitor, extract_union_eq, hT, extract_type_none]
    cases t with
    | union ts => rw [isUnionTy] at hnu; exact Bool.noConfusion hnu
    | _ => rfl
  · rw [extract_type_subscript, pgt_union, h2]
    rfl

/-- C4 witness: the amended theorem applied to `T = int`. -/
theorem optional_pipe_union_agree_witness :
    extract_type (.name "int") = .ok (.primitive "int") ∧
    isUnionTy (.primitive "int") = false ∧
    extract_type (.subscript (.name "Optional") [.name "int"]) =
      .ok (.union [.primitive "int", .primitive "None"]) :=
  ⟨by rw [extract_type_name]; rfl, rfl,
    (optional_pipe_union_agree (.name "int") (.primitive "int")
      (by rw [extract_type_name]; rfl) rfl).1⟩

theorem exceptBind_ok {α β : Type} (a : α) (f : α → Except String β) :
    (do let x ← Except.ok a; f x : Except String β) = f a := rfl

theorem exceptBind_error {α β : Type} (e : String) (f : α → Except String β) :
    (do let x ← (Except.error e : Except String α); f x : Except String β) =
      Except.error e := rfl

/-! ### C6: type-alias substitution -/

/-- An alias table recording the module-level alias `Age = int`. -/
def ageAliases : List (String × Option Expr) := [("Age", some (.name "int"))]

/-- A field annotated `x: list[Age]` after extraction. -/
def listAgeField : ClassField := ⟨"x", .generic "list" [.userDefined "Age"], none, none⟩

/-- C6 counterexample: with the alias `Age = int` recorded, a field whose
extracted type is `list[Age]` is left unchanged by the alias-resolution pass —
the user-defined leaf `Age` inside the generic names a recorded alias and is
reachable without crossing another user-defined boundary, yet no substitution
happens, because the source only rewrites a field whose type is directly a
`UserDefinedType`. -/
theorem alias_not_substituted_inside :
    finish_parsing_class_fields ageAliases [listAgeField] = .ok [listAgeField] ∧
    dictGet ageAliases "Age" = some (some (.name "int")) ∧
    extract_type (.name "int") = .ok (.primitive "int") ∧
    listAgeField.type = .generic "list" [.userDefined "Age"] ∧
    ReachUD listAgeField.type "Age" ∧
    listAgeField.type ≠ .generic "list" [.primitive "int"] := by
  refine ⟨rfl, rfl, by rw [extract_type_name]; rfl, rfl, ?_, by simp [listAgeField]⟩
  exact ReachUD.genericArg (List.mem_singleton.mpr rfl) (ReachUD.self "Age")

/-- C6 (amended): the alias-resolution pass substitutes exactly when the
field's extracted type is directly a `UserDefinedType` naming a recorded alias
with a right-hand side, and then replaces it by the alias's extracted type
verbatim — substituted exactly once, never chased recursively; every other
field, including one whose alias name only occurs strictly inside a composite
type, is left unchanged. -/
theorem resolve_field_alias_top_level (al : List (String × Option Expr)) (f : ClassField) :
    (∀ n rhs, f.type = .userDefined n → dictGet al n = some (some rhs) →
      resolve_field_alias al f =
        (extract_type rhs).map (fun t => ClassField.mk f.name t f.default_value f.comment)) ∧
    (isUserDefinedTy f.type = false → resolve_field_alias al f = .ok f) ∧
    (∀ n, f.type = .userDefined n → dictGet al n = none → resolve_field_alias al f = .ok f) := by
  refine ⟨?_, ?_, ?_⟩
  · intro n rhs hty hal
    rw [resolve_field_alias.eq_def, hty]
    simp only [hal]
    cases hrhs : extract_type rhs with
    | error e => simp only [hrhs, exceptBind_error, Except.map]
    | ok t => simp only [hrhs, exceptBind_ok, Except.map]
  · intro hn
    rw [resolve_field_alias.eq_def]
    cases hty : f.type <;>
      first
        | rfl
        | (rw [hty, isUserDefinedTy] at hn; exact Bool.noConfusion hn)
  · intro n hty hal
    rw [resolve_field_alias.eq_def, hty]
    simp only [hal]

/-- A field annotated directly with the alias name: `age: Age`. -/
def ageField : ClassField := ⟨"age", .userDefined "Age", none, none⟩

/-- C6 witness: the amended theorem applied to a field annotated directly with
the alias `Age`, resolving to `PrimitiveType(int)`. -/
theorem resolve_field_alias_top_level_witness :
    ageField.type = .userDefined "Age" ∧
    dictGet ageAliases "Age" = some (some (.name "int")) ∧
    resolve_field_alias ageAliases ageField =
      .ok (ClassField.mk "age" (.primitive "int") none none) := by
  refine ⟨rfl, rfl, ?_⟩
  have h := (resolve_field_alias_top_level ageAliases ageField).1 "Age" (.name "int") rfl rfl
  rw [h, extract_type_name]
  rfl

/-! ### C10: the classifier's unguarded import lookup -/

/-- C10: whenever a class lists `BaseModel` among its bases and the import
table has no `BaseModel` entry, `_is_pydantic_model` fails with the `KeyError`
of its unguarded `self._imports` lookup instead of returning `False`. -/
theorem is_pydantic_model_keyerror (classes : List (String × ClassDecl))
    (imports : List (String × String)) (fuel : Nat) (cls : ClassDecl)
    (h1 : "BaseModel" ∈ cls.base_classes) (h2 : dictGet imports "BaseModel" = none) :
    is_pydantic_model classes imports (fuel + 1) cls = .error "KeyError: BaseModel" := by
  rw [is_pydantic_model, if_pos h1]
  simp only [h2]

/-- Unfolding of the classifier when the framework condition succeeds. -/
theorem ipm_framework {classes : List (String × ClassDecl)}
    {imports : List (String × String)} {fuel : Nat} {cls : ClassDecl}
    (h1 : "BaseModel" ∈ cls.base_classes)
    (h2 : dictGet imports "BaseModel" = some "pydantic") :
    is_pydantic_model classes imports (fuel + 1) cls = .ok true := by
  rw [is_pydantic_model, if_pos h1]
  simp [h2]

/-- Unfolding of the classifier falling through to the base-class loop because
`BaseModel` is not a listed base. -/
theorem ipm_loop_of_not_base {classes : List (String × ClassDecl)}
    {imports : List (String × String)} {fuel : Nat} {cls : ClassDecl}
    (h1 : "BaseModel" ∉ cls.base_classes) :
    is_pydantic_model classes imports (fuel + 1) cls =
      (match first_local_base classes cls.base_classes with
        | some cls2 => is_pydantic_model classes imports fuel cls2
        | none => .ok false) := by
  rw [is_pydantic_model, if_neg h1]

/-- Unfolding of the classifier falling through to the base-class loop because
the `BaseModel` import maps to some other module. -/
theorem ipm_loop_of_other_import {classes : List (String × ClassDecl)}
    {imports : List (String × String)} {fuel : Nat} {cls : ClassDecl} {fm : String}
    (h1 : "BaseModel" ∈ cls.base_classes)
    (h2 : dictGet imports "BaseModel" = some fm) (h3 : fm ≠ "pydantic") :
    is_pydantic_model classes imports (fuel + 1) cls =
      (match first_local_base classes cls.base_classes with
        | some cls2 => is_pydantic_model classes imports fuel cls2
        | none => .ok false) := by
  rw [is_pydantic_model, if_pos h1]
  simp only [h2, if_neg h3]

/-- A module declaring its own class named `BaseModel` locally, plus a model
deriving from it, with an empty import table. -/
def bmLocalClasses : List (String × ClassDecl) :=
  [("BaseModel", ⟨"BaseModel", [], [], none⟩), ("M", ⟨"M", ["BaseModel"], [], none⟩)]

/-- C10 witness: the theorem applied to a locally declared `BaseModel` base in
a module with no `BaseModel` import. -/
theorem is_pydantic_model_keyerror_witness :
    ("BaseModel" ∈ (ClassDecl.mk "M" ["BaseModel"] [] none).base_classes) ∧
    dictGet ([] : List (String × String)) "BaseModel" = none ∧
    is_pydantic_model bmLocalClasses [] 5 (ClassDecl.mk "M" ["BaseModel"] [] none) =
      .error "KeyError: BaseModel" :=
  ⟨by decide, rfl,
    is_pydantic_model_keyerror bmLocalClasses [] 4 (ClassDecl.mk "M" ["BaseModel"] [] none)
      (by decide) rfl⟩

/-! ### C2: the model classifier -/

/-- A class that is not a model. -/
def clsA : ClassDecl := ⟨"A", [], [], none⟩

/-- A class deriving from the framework base. -/
def clsB : ClassDecl := ⟨"B", ["BaseModel"], [], none⟩

/-- A class listing the non-model `A` first and the model `B` second. -/
def clsC : ClassDecl := ⟨"C", ["A", "B"], [], none⟩

/-- The locally declared classes of the C2 counterexample module. -/
def localClasses : List (String × ClassDecl) := [("A", clsA), ("B", clsB), ("C", clsC)]

/-- An import table mapping `BaseModel` to `pydantic`. -/
def pydImports : List (String × String) := [("BaseModel", "pydantic")]

/-- C2 counterexample: `C` lists a base (`B`) that resolves to a locally
declared class for which the classifier is true, yet the classifier returns
`False` on `C` — the base-class loop returns the recursive result of the
first locally declared base (`A`) and never consults `B`. -/
theorem is_pydantic_model_not_any_base :
    is_pydantic_model localClasses pydImports 5 clsC = .ok false ∧
    "B" ∈ clsC.base_classes ∧
    dictGet localClasses "B" = some clsB ∧
    is_pydantic_model localClasses pydImports 5 clsB = .ok true :=
  ⟨rfl, by decide, rfl, rfl⟩

/-- C2 (amended): provided the `BaseModel` import lookup cannot fail, the
classifier returns true iff the class lists `BaseModel` as a base with the
table of imports mapping it to `pydantic`, or the first base resolving to a
locally declared class exists and the classifier (applied recursively) is
true of it; locally declared bases after the first one are never consulted. -/
theorem is_pydantic_model_first_local (classes : List (String × ClassDecl))
    (imports : List (String × String)) (fuel : Nat) (cls : ClassDecl)
    (hkey : "BaseModel" ∈ cls.base_classes → (dictGet imports "BaseModel").isSome) :
    is_pydantic_model classes imports (fuel + 1) cls = .ok true ↔
      ("BaseModel" ∈ cls.base_classes ∧ dictGet imports "BaseModel" = some "pydantic") ∨
      (∃ cls2, first_local_base classes cls.base_classes = some cls2 ∧
        is_pydantic_model classes imports fuel cls2 = .ok true) := by
  by_cases hBM : "BaseModel" ∈ cls.base_classes
  · obtain ⟨fm, hlook⟩ := Option.isSome_iff_exists.mp (hkey hBM)
    by_cases hfm : fm = "pydantic"
    · subst hfm
      exact iff_of_true (ipm_framework hBM hlook) (Or.inl ⟨hBM, hlook⟩)
    · rw [ipm_loop_of_other_import hBM hlook hfm]
      cases hflb : first_local_base classes cls.base_classes with
      | none =>
        constructor
        · intro h
          exact absurd h (by simp)
        · rintro (⟨_, h⟩ | ⟨c, hc, _⟩)
          · rw [hlook] at h
            injection h with h2
            exact absurd h2 hfm
          · exact Option.noConfusion hc
      | some cls2 =>
        constructor
        · intro h
          exact Or.inr ⟨cls2, rfl, h⟩
        · rintro (⟨_, h⟩ | ⟨c, hc, h⟩)
          · rw [hlook] at h
            injection h with h2
            exact absurd h2 hfm
          · injection hc with hc2
            subst hc2
            exact h
  · rw [ipm_loop_of_not_base hBM]
    cases hflb : first_local_base classes cls.base_classes with
    | none =>
      constructor
      · intro h
        exact absurd h (by simp)
      · rintro (⟨hb, _⟩ | ⟨c, hc, _⟩)
        · exact absurd hb hBM
        · exact Option.noConfusion hc
    | some cls2 =>
      constructor
      · intro h
        exact Or.inr ⟨cls2, rfl, h⟩
      · rintro (⟨hb, _⟩ | ⟨c, hc, h⟩)
        · exact absurd hb hBM
        · injection hc with hc2
          subst hc2
          exact h

/-- C2 witness: the amended theorem applied to `C`, showing the first-local
disjunct characterizes the concrete run: the classifier on `C` is false iff
neither disjunct holds, and on a class listing only `B` it is true. -/
theorem is_pydantic_model_first_local_witness :
    ("BaseModel" ∈ (ClassDecl.mk "Sub" ["B"] [] none).base_classes →
      (dictGet pydImports "BaseModel").isSome) ∧
    is_pydantic_model localClasses pydImports 5 (ClassDecl.mk "Sub" ["B"] [] none) = .ok true :=
  ⟨by decide, by
    refine (is_pydantic_model_first_local localClasses pydImports 4
      (ClassDecl.mk "Sub" ["B"] [] none) (by decide)).mpr ?_
    exact Or.inr ⟨clsB, rfl, rfl⟩⟩

/-! ### C9: external model paths -/

/-- C9: membership in the result of `external_models`: exactly the
fully-qualified paths of the external dependency names — origin path resolved
against the package context — that are not one of the two well-known
non-model paths `uuid.UUID` and `pydantic.BaseModel`. -/
theorem external_models_characterization (imports : List (String × String))
    (package : Option String) :
    ∀ (ns : List String) (l : List String), external_models imports package ns = .ok l →
      ∀ x, x ∈ l ↔ ∃ n ∈ ns, fq_model_path imports package n = .ok x ∧
        x ≠ "uuid.UUID" ∧ x ≠ "pydantic.BaseModel" := by
  intro ns
  induction ns with
  | nil =>
    intro l h x
    rw [external_models] at h
    injection h with h2
    subst h2
    simp
  | cons n ns ih =>
    intro l h x
    rw [external_models] at h
    cases hfq : fq_model_path imports package n with
    | error e =>
      rw [hfq] at h
      exact absurd h (by simp [exceptBind_error])
    | ok fq =>
      rw [hfq, exceptBind_ok] at h
      cases hrest : external_models imports package ns with
      | error e =>
        rw [hrest] at h
        exact absurd h (by simp [exceptBind_error])
      | ok rest =>
        rw [hrest, exceptBind_ok] at h
        by_cases hfix : fq = "uuid.UUID" ∨ fq = "pydantic.BaseModel"
        · rw [if_pos hfix] at h
          injection h with h2
          subst h2
          constructor
          · intro hx
            obtain ⟨n2, hn2, rest2⟩ := (ih rest hrest x).mp hx
            exact ⟨n2, List.mem_cons_of_mem _ hn2, rest2⟩
          · rintro ⟨n2, hn2, hfq2, hne1, hne2⟩
            rcases List.mem_cons.mp hn2 with hn2 | hn2
            · subst hn2
              rw [hfq] at hfq2
              injection hfq2 with hx
              subst hx
              rcases hfix with hfix | hfix
              · exact absurd hfix.symm (Ne.symm hne1)
              · exact absurd hfix.symm (Ne.symm hne2)
            · exact (ih rest hrest x).mpr ⟨n2, hn2, hfq2, hne1, hne2⟩
        · rw [if_neg hfix] at h
          injection h with h2
          subst h2
          push_neg at hfix
          constructor
          · intro hx
            rcases List.mem_cons.mp hx with hx | hx
            · subst hx
              exact ⟨n, List.mem_cons_self n ns, hfq, hfix.1, hfix.2⟩
            · obtain ⟨n2, hn2, rest2⟩ := (ih rest hrest x).mp hx
              exact ⟨n2, List.mem_cons_of_mem _ hn2, rest2⟩
          · rintro ⟨n2, hn2, hfq2, hne1, hne2⟩
            rcases List.mem_cons.mp hn2 with hn2 | hn2
            · subst hn2
              rw [hfq] at hfq2
              injection hfq2 with hx
              subst hx
              exact List.mem_cons_self fq rest
            · exact List.mem_cons_of_mem _ ((ih rest hrest x).mpr ⟨n2, hn2, hfq2, hne1, hne2⟩)

/-- The import table of the C9 witness: a relative origin for `Request`, the
well-known `uuid.UUID`, and the framework base itself. -/
def witnessImports : List (String × String) :=
  [("Request", "..http.cassette"), ("UUID", "uuid"), ("BaseModel", "pydantic")]

/-- C9 witness: the characterization applied to a concrete module with package
`scanner.api.v1`: the relative origin resolves through two leading dots and
`Request`'s fully-qualified path is kept, while `uuid.UUID` is dropped. -/
theorem external_models_characterization_witness :
    external_models witnessImports (some "scanner.api.v1") ["Request", "UUID"] =
      .ok ["scanner.api.http.cassette.Request"] ∧
    ("scanner.api.http.cassette.Request" ∈ ["scanner.api.http.cassette.Request"] ↔
      ∃ n ∈ ["Request", "UUID"],
        fq_model_path witnessImports (some "scanner.api.v1") n =
          .ok "scanner.api.http.cassette.Request" ∧
        "scanner.api.http.cassette.Request" ≠ "uuid.UUID" ∧
        "scanner.api.http.cassette.Request" ≠ "pydantic.BaseModel") := by
  constructor
  · rfl
  · exact external_models_characterization witnessImports (some "scanner.api.v1")
      ["Request", "UUID"] ["scanner.api.http.cassette.Request"] rfl
      "scanner.api.http.cassette.Request"

/-! ### C8: the dependency set -/

theorem mem_gudt_list (ts : List PyType) (d : String) :
    d ∈ get_user_defined_types_list ts ↔ ∃ t ∈ ts, d ∈ get_user_defined_types t := by
  induction ts with
  | nil =>
    rw [get_user_defined_types_list]
    simp
  | cons t ts ih =>
    rw [get_user_defined_types_list]
    rw [List.mem_append, ih]
    constructor
    · rintro (h | ⟨t2, ht2, hd⟩)
      · exact ⟨t, List.mem_cons_self t ts, h⟩
      · exact ⟨t2, List.mem_cons_of_mem _ ht2, hd⟩
    · rintro ⟨t2, ht2, hd⟩
      rcases List.mem_cons.mp ht2 with h | h
      · subst h
        exact Or.inl hd
      · exact Or.inr ⟨t2, h, hd⟩

theorem reach_of_mem_gudt :
    ∀ (N : Nat) (t : PyType), sizeOf t ≤ N →
      ∀ d, d ∈ get_user_defined_types t → ReachUD t d := by
  intro N
  induction N with
  | zero =>
    intro t ht
    exact absurd ht (by have := pytype_sizeOf_pos t; omega)
  | succ N ih =>
    intro t ht d hd
    cases t with
    | userDefined n =>
      rw [get_user_defined_types] at hd
      rw [List.mem_singleton] at hd
      subst hd
      exact ReachUD.self d
    | union ts =>
      rw [get_user_defined_types] at hd
      obtain ⟨t2, ht2, hd2⟩ := (mem_gudt_list ts d).mp hd
      have hlt := List.sizeOf_lt_of_mem ht2
      have hsz : sizeOf t2 ≤ N := by
        simp only [PyType.union.sizeOf_spec] at ht
        omega
      exact ReachUD.unionMem ht2 (ih t2 hsz d hd2)
    | generic g ts =>
      rw [get_user_defined_types] at hd
      obtain ⟨t2, ht2, hd2⟩ := (mem_gudt_list ts d).mp hd
      have hlt := List.sizeOf_lt_of_mem ht2
      have hsz : sizeOf t2 ≤ N := by
        simp only [PyType.generic.sizeOf_spec] at ht
        omega
      exact ReachUD.genericArg ht2 (ih t2 hsz d hd2)
    | literal v ot =>
      cases ot with
      | none => simp [get_user_defined_types] at hd
      | some t2 =>
        rw [get_user_defined_types] at hd
        have hsz : sizeOf t2 ≤ N := by
          simp only [PyType.literal.sizeOf_spec, Option.some.sizeOf_spec] at ht
          omega
        exact ReachUD.literalWrapped (ih t2 hsz d hd)
    | primitive n => simp [get_user_defined_types] at hd
    | builtin n => simp [get_user_defined_types] at hd
    | tuple ts => simp [get_user_defined_types] at hd

theorem mem_gudt_of_reach : ∀ {t : PyType} {d : String},
    ReachUD t d → d ∈ get_user_defined_types t := by
  intro t d h
  induction h with
  | self n =>
    rw [get_user_defined_types]
    exact List.mem_singleton_self n
  | unionMem ht2 _ ih =>
    rw [get_user_defined_types]
    exact (mem_gudt_list _ _).mpr ⟨_, ht2, ih⟩
  | literalWrapped _ ih =>
    rw [get_user_defined_types]
    exact ih
  | genericArg ht2 _ ih =>
    rw [get_user_defined_types]
    exact (mem_gudt_list _ _).mpr ⟨_, ht2, ih⟩

theorem gudt_iff_reach (t : PyType) (d : String) :
    d ∈ get_user_defined_types t ↔ ReachUD t d :=
  ⟨reach_of_mem_gudt (sizeOf t) t le_rfl d, mem_gudt_of_reach⟩

/-- C8: the dependency set of a fully extracted class is exactly its
base-class names other than `BaseModel`, together with every user-defined name
reachable in some field's type by recursing only through union members,
literal-wrapped types and generic type arguments — names occurring only in
tuple positions are not dependencies (`ReachUD` has no tuple rule, matching
`_get_user_defined_types`, whose catch-all covers `TupleType`). -/
theorem class_deps_characterization (cls : ClassDecl) (d : String) :
    d ∈ class_deps cls ↔
      (d ∈ cls.base_classes ∧ d ≠ "BaseModel") ∨ ∃ f ∈ cls.fields, ReachUD f.type d := by
  rw [class_deps, List.mem_append, List.mem_filter]
  constructor
  · rintro (⟨hb, hne⟩ | hf)
    · exact Or.inl ⟨hb, by simpa using hne⟩
    · rw [List.mem_flatten] at hf
      obtain ⟨l, hl, hd⟩ := hf
      rw [List.mem_map] at hl
      obtain ⟨f, hfmem, hfl⟩ := hl
      subst hfl
      exact Or.inr ⟨f, hfmem, (gudt_iff_reach _ _).mp hd⟩
  · rintro (⟨hb, hne⟩ | ⟨f, hfmem, hr⟩)
    · exact Or.inl ⟨hb, by simpa using hne⟩
    · refine Or.inr ?_
      rw [List.mem_flatten]
      exact ⟨get_user_defined_types f.type, List.mem_map.mpr ⟨f, hfmem, rfl⟩,
        (gudt_iff_reach _ _).mpr hr⟩

/-! ### C3: the flattened-union invariant -/

theorem hasNestedUnion_union (ts : List PyType) :
    hasNestedUnion (.union ts) = hasNestedUnionMem ts := by
  rw [hasNestedUnion]

theorem hasNestedUnion_generic (g : String) (ts : List PyType) :
    hasNestedUnion (.generic g ts) = hasNestedUnionList ts := by
  rw [hasNestedUnion]

theorem hasNestedUnion_tuple (ts : List PyType) :
    hasNestedUnion (.tuple ts) = hasNestedUnionList ts := by
  rw [hasNestedUnion]

theorem hasNestedUnion_literal (v : Option String) (ot : Option PyType) :
    hasNestedUnion (.literal v ot) = (match ot with | some t => hasNestedUnion t | none => false) := by
  cases ot with
  | some t => rw [hasNestedUnion]
  | none => simp [hasNestedUnion]

theorem hasNestedUnion_primitive (n : String) : hasNestedUnion (.primitive n) = false := by
  simp [hasNestedUnion]

theorem hasNestedUnion_builtin (n : String) : hasNestedUnion (.builtin n) = false := by
  simp [hasNestedUnion]

theorem hasNestedUnion_userDefined (n : String) : hasNestedUnion (.userDefined n) = false := by
  simp [hasNestedUnion]

theorem hasNestedUnionList_eq_false (ts : List PyType) :
    hasNestedUnionList ts = false ↔ ∀ t ∈ ts, hasNestedUnion t = false := by
  induction ts with
  | nil =>
    rw [hasNestedUnionList]
    simp
  | cons t ts ih =>
    rw [hasNestedUnionList]
    simp [ih]

theorem hasNestedUnionMem_eq_false (ts : List PyType) :
    hasNestedUnionMem ts = false ↔
      ∀ t ∈ ts, isUnionTy t = false ∧ hasNestedUnion t = false := by
  induction ts with
  | nil =>
    rw [hasNestedUnionMem]
    simp
  | cons t ts ih =>
    rw [hasNestedUnionMem]
    simp [ih]
    try tauto

theorem primOrUser_no_nested (v : String) :
    hasNestedUnion (primitive_or_user_defined_type v) = false := by
  rw [primitive_or_user_defined_type]
  split
  · rw [hasNestedUnion_primitive]
  · split
    · rw [hasNestedUnion_builtin]
    · split
      · rw [hasNestedUnion_builtin]
      · rw [hasNestedUnion_userDefined]

theorem primOrUser_nonunion (v : String) :
    isUnionTy (primitive_or_user_defined_type v) = false := by
  rw [primitive_or_user_defined_type]
  split
  · rfl
  · split
    · rfl
    · split
      · rfl
      · rfl

theorem parse_types_list_members :
    ∀ (es : List Expr) (ts : List PyType), parse_types_list es = .ok ts →
      ∀ t ∈ ts, ∃ e ∈ es, extract_type e = .ok t := by
  intro es
  induction es with
  | nil =>
    intro ts h
    rw [parse_types_list_nil] at h
    injection h with h2
    subst h2
    simp
  | cons e es ih =>
    intro ts h t ht
    rw [parse_types_list_cons] at h
    cases hx : extract_type e with
    | error m =>
      rw [hx, exceptBind_error] at h
      exact Except.noConfusion h
    | ok t0 =>
      rw [hx, exceptBind_ok] at h
      cases hrest : parse_types_list es with
      | error m =>
        rw [hrest, exceptBind_error] at h
        exact Except.noConfusion h
      | ok ts0 =>
        rw [hrest, exceptBind_ok] at h
        injection h with h2
        subst h2
        rcases List.mem_cons.mp ht with h3 | h3
        · subst h3
          exact ⟨e, List.mem_cons_self e es, hx⟩
        · obtain ⟨e2, he2, hex2⟩ := ih ts0 hrest t h3
          exact ⟨e2, List.mem_cons_of_mem _ he2, hex2⟩

theorem unionArgsFlatList_mem (es : List Expr) :
    unionArgsFlatList es = true ↔ ∀ e ∈ es, unionArgsFlat e = true := by
  induction es with
  | nil =>
    rw [unionArgsFlatList]
    simp
  | cons e es ih =>
    rw [unionArgsFlatList]
    simp [ih]

theorem unionSubArgsFlat_mem (es : List Expr) :
    unionSubArgsFlat es = true ↔
      ∀ e ∈ es, isUnionResult e = false ∧ unionArgsFlat e = true := by
  induction es with
  | nil =>
    rw [unionSubArgsFlat]
    simp
  | cons e es ih =>
    rw [unionSubArgsFlat]
    simp [ih]
    try tauto

theorem nonunion_of_not_unionResult {e : Expr} {t : PyType}
    (h1 : isUnionResult e = false) (h2 : extract_type e = .ok t) :
    isUnionTy t = false := by
  rw [isUnionResult, h2] at h1
  cases t <;> first | rfl | exact Bool.noConfusion h1

theorem nested_mem_literals (vs : List String) :
    hasNestedUnionMem (vs.map (fun v => PyType.literal (some v) none)) = false := by
  induction vs with
  | nil => rw [List.map_nil, hasNestedUnionMem]
  | cons v vs ih =>
    rw [List.map_cons, hasNestedUnionMem]
    rw [ih, hasNestedUnion_literal]
    rfl

theorem parse_literal_no_nested (es : List Expr) (t : PyType)
    (h : parse_literal es = .ok t) : hasNestedUnion t = false := by
  rw [parse_literal] at h
  cases hv : parse_literal_values es with
  | error m =>
    rw [hv, exceptBind_error] at h
    exact Except.noConfusion h
  | ok vs =>
    rw [hv, exceptBind_ok] at h
    match vs, h with
    | [], h =>
      injection h with h2
      subst h2
      rw [hasNestedUnion_union, List.map_nil, hasNestedUnionMem]
    | [v], h =>
      injection h with h2
      subst h2
      rw [hasNestedUnion_literal]
    | v1 :: v2 :: vs, h =>
      injection h with h2
      subst h2
      rw [hasNestedUnion_union]
      exact nested_mem_literals (v1 :: v2 :: vs)

theorem splice_ok {lt : PyType} (h : hasNestedUnion lt = false) :
    ∀ x ∈ (match lt with | PyType.union ts => ts | t => [t]),
      isUnionTy x = false ∧ hasNestedUnion x = false := by
  cases lt with
  | union ts =>
    rw [hasNestedUnion_union] at h
    exact (hasNestedUnionMem_eq_false ts).mp h
  | _ =>
    intro x hx
    rw [List.mem_singleton] at hx
    subst hx
    exact ⟨rfl, h⟩

theorem ptl_all_no_nested {es : List Expr} {ts : List PyType}
    (hts : parse_types_list es = .ok ts)
    (helem : ∀ e ∈ es, ∀ t, extract_type e = .ok t → hasNestedUnion t = false) :
    hasNestedUnionList ts = false := by
  apply (hasNestedUnionList_eq_false ts).mpr
  intro x hx
  obtain ⟨e, he, hex⟩ := parse_types_list_members es ts hts x hx
  exact helem e he x hex

theorem uaf_union_sub (es : List Expr) :
    unionArgsFlat (.subscript (.name "Union") es) = unionSubArgsFlat es := by
  rw [unionArgsFlat]

theorem uaf_optional_sub (es : List Expr) :
    unionArgsFlat (.subscript (.name "Optional") es) = unionSubArgsFlat es := by
  rw [unionArgsFlat]

theorem uaf_sub_other {b : Expr} (es : List Expr)
    (h1 : b ≠ .name "Union") (h2 : b ≠ .name "Optional") :
    unionArgsFlat (.subscript b es) = unionArgsFlatList es := by
  rw [unionArgsFlat.eq_def]
  split
  · rename_i heq
    injection heq with heq1 heq2
    exact absurd heq1 h1
  · rename_i heq
    injection heq with heq1 heq2
    exact absurd heq1 h2
  · rename_i base2 es2 hn1 hn2 heq
    injection heq with heq1 heq2
    subst heq2
    rfl
  · rename_i op2 l2 r2 heq
    exact Expr.noConfusion heq
  · rename_i hother hn1 hn2 hn3 hn4
    exact absurd rfl (hn3 b es)

theorem uaf_name (v : String) : unionArgsFlat (.name v) = true := by
  rw [unionArgsFlat.eq_def]

theorem uaf_binop (op : BinOp) (l r : Expr) :
    unionArgsFlat (.binop op l r) = (unionArgsFlat l && unionArgsFlat r) := by
  rw [unionArgsFlat]

theorem extract_no_nested_aux :
    ∀ (N : Nat) (e : Expr) (t : PyType), sizeOf e ≤ N →
      unionArgsFlat e = true → extract_type e = .ok t → hasNestedUnion t = false := by
  intro N
  induction N with
  | zero =>
    intro e t he
    exact absurd he (by have := expr_sizeOf_pos e; omega)
  | succ N ih =>
    intro e t he hflat hex
    cases e with
    | name v =>
      rw [extract_type_name] at hex
      injection hex with h2
      subst h2
      exact primOrUser_no_nested v
    | attrAccess o a => simp [extract_type] at hex
    | simpleString raw => simp [extract_type] at hex
    | intLit n => simp [extract_type] at hex
    | dictLit => simp [extract_type] at hex
    | binop op l r =>
      cases op with
      | add => simp [extract_type] at hex
      | bitOr =>
        rw [extract_type_bitor, extract_union_eq] at hex
        rw [uaf_binop] at hflat
        obtain ⟨hfl, hfr⟩ := Bool.and_eq_true_iff.mp hflat
        cases hl : extract_type l with
        | error m =>
          rw [hl, exceptBind_error] at hex
          exact Except.noConfusion hex
        | ok lt =>
          rw [hl, exceptBind_ok] at hex
          cases hr : extract_type r with
          | error m =>
            rw [hr, exceptBind_error] at hex
            exact Except.noConfusion hex
          | ok rt =>
            rw [hr, exceptBind_ok] at hex
            injection hex with h2
            subst h2
            have hlsize : sizeOf l ≤ N := by
              simp only [Expr.binop.sizeOf_spec] at he
              omega
            have hrsize : sizeOf r ≤ N := by
              simp only [Expr.binop.sizeOf_spec] at he
              omega
            have hlt := ih l lt hlsize hfl hl
            have hrt := ih r rt hrsize hfr hr
            rw [hasNestedUnion_union]
            apply (hasNestedUnionMem_eq_false _).mpr
            intro x hx
            rcases List.mem_append.mp hx with hx | hx
            · exact splice_ok hlt x hx
            · exact splice_ok hrt x hx
    | subscript b es =>
      rw [extract_type_subscript] at hex
      have hsizes : ∀ e2 ∈ es, sizeOf e2 ≤ N := by
        intro e2 he2
        have h1 := List.sizeOf_lt_of_mem he2
        have h2 := expr_sizeOf_pos b
        simp only [Expr.subscript.sizeOf_spec] at he
        omega
      rw [parse_generic_type.eq_def] at hex
      split at hex
      -- Literal
      · exact parse_literal_no_nested es t hex
      -- list
      · cases hts : parse_types_list es with
        | error m =>
          rw [hts, exceptBind_error] at hex
          exact Except.noConfusion hex
        | ok ts =>
          rw [hts, exceptBind_ok] at hex
          injection hex with h2
          subst h2
          rw [hasNestedUnion_generic]
          refine ptl_all_no_nested hts (fun e2 he2 t2 hex2 => ?_)
          rw [uaf_sub_other es (by simp) (by simp)] at hflat
          exact ih e2 t2 (hsizes e2 he2) ((unionArgsFlatList_mem es).mp hflat e2 he2) hex2
      -- List
      · cases hts : parse_types_list es with
        | error m =>
          rw [hts, exceptBind_error] at hex
          exact Except.noConfusion hex
        | ok ts =>
          rw [hts, exceptBind_ok] at hex
          injection hex with h2
          subst h2
          rw [hasNestedUnion_generic]
          refine ptl_all_no_nested hts (fun e2 he2 t2 hex2 => ?_)
          rw [uaf_sub_other es (by simp) (by simp)] at hflat
          exact ih e2 t2 (hsizes e2 he2) ((unionArgsFlatList_mem es).mp hflat e2 he2) hex2
      -- dict
      · cases hts : parse_types_list es with
        | error m =>
          rw [hts, exceptBind_error] at hex
          exact Except.noConfusion hex
        | ok ts =>
          rw [hts, exceptBind_ok] at hex
          injection hex with h2
          subst h2
          rw [hasNestedUnion_generic]
          refine ptl_all_no_nested hts (fun e2 he2 t2 hex2 => ?_)
          rw [uaf_sub_other es (by simp) (by simp)] at hflat
          exact ih e2 t2 (hsizes e2 he2) ((unionArgsFlatList_mem es).mp hflat e2 he2) hex2
      -- Dict
      · cases hts : parse_types_list es with
        | error m =>
          rw [hts, exceptBind_error] at hex
          exact Except.noConfusion hex
        | ok ts =>
          rw [hts, exceptBind_ok] at hex
          injection hex with h2
          subst h2
          rw [hasNestedUnion_generic]
          refine ptl_all_no_nested hts (fun e2 he2 t2 hex2 => ?_)
          rw [uaf_sub_other es (by simp) (by simp)] at hflat
          exact ih e2 t2 (hsizes e2 he2) ((unionArgsFlatList_mem es).mp hflat e2 he2) hex2
      -- Union
      · cases hts : parse_types_list es with
        | error m =>
          rw [hts, exceptBind_error] at hex
          exact Except.noConfusion hex
        | ok ts =>
          rw [hts, exceptBind_ok] at hex
          injection hex with h2
          subst h2
          rw [uaf_union_sub] at hflat
          rw [hasNestedUnion_union]
          apply (hasNestedUnionMem_eq_false _).mpr
          intro x hx
          obtain ⟨e2, he2, hex2⟩ := parse_types_list_members es ts hts x hx
          obtain ⟨hnr, hfe⟩ := (unionSubArgsFlat_mem es).mp hflat e2 he2
          exact ⟨nonunion_of_not_unionResult hnr hex2,
            ih e2 x (hsizes e2 he2) hfe hex2⟩
      -- Optional
      · cases hts : parse_types_list es with
        | error m =>
          rw [hts, exceptBind_error] at hex
          exact Except.noConfusion hex
        | ok ts =>
          rw [hts, exceptBind_ok] at hex
          injection hex with h2
          subst h2
          rw [uaf_optional_sub] at hflat
          rw [hasNestedUnion_union]
          apply (hasNestedUnionMem_eq_false _).mpr
          intro x hx
          rcases List.mem_append.mp hx with hx | hx
          · obtain ⟨e2, he2, hex2⟩ := parse_types_list_members es ts hts x hx
            obtain ⟨hnr, hfe⟩ := (unionSubArgsFlat_mem es).mp hflat e2 he2
            exact ⟨nonunion_of_not_unionResult hnr hex2,
              ih e2 x (hsizes e2 he2) hfe hex2⟩
          · rw [List.mem_singleton] at hx
            subst hx
            exact ⟨rfl, hasNestedUnion_primitive "None"⟩
      -- tuple
      · cases hts : parse_types_list es with
        | error m =>
          rw [hts, exceptBind_error] at hex
          exact Except.noConfusion hex
        | ok ts =>
          rw [hts, exceptBind_ok] at hex
          injection hex with h2
          subst h2
          rw [hasNestedUnion_tuple]
          refine ptl_all_no_nested hts (fun e2 he2 t2 hex2 => ?_)
          rw [uaf_sub_other es (by simp) (by simp)] at hflat
          exact ih e2 t2 (hsizes e2 he2) ((unionArgsFlatList_mem es).mp hflat e2 he2) hex2
      -- Tuple
      · cases hts : parse_types_list es with
        | error m =>
          rw [hts, exceptBind_error] at hex
          exact Except.noConfusion hex
        | ok ts =>
          rw [hts, exceptBind_ok] at hex
          injection hex with h2
          subst h2
          rw [hasNestedUnion_tuple]
          refine ptl_all_no_nested hts (fun e2 he2 t2 hex2 => ?_)
          rw [uaf_sub_other es (by simp) (by simp)] at hflat
          exact ih e2 t2 (hsizes e2 he2) ((unionArgsFlatList_mem es).mp hflat e2 he2) hex2
      -- unrecognized name
      · exact Except.noConfusion hex
      -- non-name base
      · exact Except.noConfusion hex

/-- C3 counterexample: `Optional` keeps a union-valued argument nested: the
extraction of the annotation `Optional[int | str]` is a `UnionType` one of
whose members is itself a `UnionType`. -/
theorem nested_union_counterexample :
    extract_type (.subscript (.name "Optional") [.binop .bitOr (.name "int") (.name "str")]) =
      .ok (.union [.union [.primitive "int", .primitive "str"], .primitive "None"]) ∧
    hasNestedUnion
      (.union [.union [.primitive "int", .primitive "str"], .primitive "None"]) = true := by
  constructor
  · simp only [extract_type, parse_generic_type, parse_types_list, extract_union,
      primitive_or_user_defined_type]
    rfl
  · rw [hasNestedUnion_union, hasNestedUnionMem]
    simp [isUnionTy]

/-- C3 (amended): the no-nested-union invariant holds for every annotation in
which each subscript argument of `Union[...]` and `Optional[...]` extracts to
a non-union type: chained binary or-expressions are always flattened one
level, but a union-valued argument of `Union`/`Optional` (for example a
chained or-union or a multi-value literal written inside `Optional[...]`) is
kept nested, so the unrestricted claim fails. -/
theorem no_nested_union_of_flat (e : Expr) (t : PyType)
    (hflat : unionArgsFlat e = true) (hex : extract_type e = .ok t) :
    hasNestedUnion t = false :=
  extract_no_nested_aux (sizeOf e) e t le_rfl hflat hex

/-- C3 witness: the amended theorem applied to `Optional[int]`. -/
theorem no_nested_union_of_flat_witness :
    unionArgsFlat (.subscript (.name "Optional") [.name "int"]) = true ∧
    extract_type (.subscript (.name "Optional") [.name "int"]) =
      .ok (.union [.primitive "int", .primitive "None"]) ∧
    hasNestedUnion (.union [.primitive "int", .primitive "None"]) = false := by
  have hf : unionArgsFlat (.subscript (.name "Optional") [.name "int"]) = true := by
    rw [uaf_optional_sub]
    apply (unionSubArgsFlat_mem _).mpr
    intro e2 he2
    rw [List.mem_singleton] at he2
    subst he2
    constructor
    · rw [isUnionResult, extract_type_name]
      rfl
    · exact uaf_name "int"
  have hx : extract_type (.subscript (.name "Optional") [.name "int"]) =
      .ok (.union [.primitive "int", .primitive "None"]) := by
    simp only [extract_type, parse_generic_type, parse_types_list,
      primitive_or_user_defined_type]
    rfl
  exact ⟨hf, hx, no_nested_union_of_flat _ _ hf hx⟩

/-! ### C5: the accepted expression grammar -/

theorem bind_pure_isSome {α β : Type} (x : Except String α) (f : α → β) :
    (do let a ← x; Except.ok (f a) : Except String β).toOption.isSome = x.toOption.isSome := by
  cases x <;> rfl

theorem plv_isSome (es : List Expr) :
    (parse_literal_values es).toOption.isSome = es.all isSimpleStringE := by
  induction es with
  | nil => rfl
  | cons e es ih =>
    cases e with
    | simpleString raw =>
      rw [parse_literal_values, List.all_cons]
      simp only [isSimpleStringE, Bool.true_and]
      rw [← ih]
      cases hp : parse_literal_values es with
      | error m => rfl
      | ok vs => rfl
    | name v => simp [parse_literal_values, List.all_cons, isSimpleStringE, Except.toOption]
    | attrAccess o a =>
      simp [parse_literal_values, List.all_cons, isSimpleStringE, Except.toOption]
    | subscript b es2 =>
      simp [parse_literal_values, List.all_cons, isSimpleStringE, Except.toOption]
    | binop op l r =>
      simp [parse_literal_values, List.all_cons, isSimpleStringE, Except.toOption]
    | intLit n => simp [parse_literal_values, List.all_cons, isSimpleStringE, Except.toOption]
    | dictLit => simp [parse_literal_values, List.all_cons, isSimpleStringE, Except.toOption]

theorem parse_literal_isSome (es : List Expr) :
    (parse_literal es).toOption.isSome = es.all isSimpleStringE := by
  rw [← plv_isSome es, parse_literal]
  cases hp : parse_literal_values es with
  | error m => rfl
  | ok vs =>
    rw [exceptBind_ok]
    cases vs with
    | nil => rfl
    | cons v vs2 => cases vs2 <;> rfl

theorem ptl_isSome : ∀ (es : List Expr),
    (∀ e ∈ es, extractOk e = accepted e) →
    (parse_types_list es).toOption.isSome = acceptedList es := by
  intro es
  induction es with
  | nil =>
    intro _
    rw [parse_types_list_nil, acceptedList]
    rfl
  | cons e es ih =>
    intro helem
    rw [parse_types_list_cons, acceptedList]
    have he := helem e (List.mem_cons_self e es)
    rw [extractOk] at he
    cases hx : extract_type e with
    | error m =>
      rw [hx] at he
      have he2 : false = accepted e := he
      rw [exceptBind_error, ← he2]
      rfl
    | ok t =>
      rw [hx] at he
      have he2 : true = accepted e := he
      rw [exceptBind_ok, ← he2, Bool.true_and]
      have ih2 := ih (fun e2 he2 => helem e2 (List.mem_cons_of_mem _ he2))
      cases hp : parse_types_list es with
      | error m =>
        rw [hp] at ih2
        have ih3 : false = acceptedList es := ih2
        rw [exceptBind_error, ← ih3]
        rfl
      | ok ts =>
        rw [hp] at ih2
        have ih3 : true = acceptedList es := ih2
        rw [exceptBind_ok, ← ih3]
        rfl

theorem accepted_name (v : String) : accepted (.name v) = true := by
  rw [accepted.eq_def]

theorem accepted_sub_literal (es : List Expr) :
    accepted (.subscript (.name "Literal") es) = es.all isSimpleStringE := by
  rw [accepted.eq_def]
  split
  · rename_i heq
    exact Expr.noConfusion heq
  · rename_i heq
    injection heq with heq1 heq2
    subst heq2
    rfl
  · rename_i hnb heq
    injection heq with heq1 heq2
    injection heq1 with heq1
    exact absurd heq1.symm hnb
  · rename_i heq
    exact Expr.noConfusion heq
  · rename_i h1 h2 h3 h4
    exact absurd rfl (h2 es)

theorem accepted_bitor (l r : Expr) :
    accepted (.binop .bitOr l r) = (accepted l && accepted r) := by
  rw [accepted.eq_def]

theorem accepted_sub_name {b : String} (es : List Expr) (hb : b ≠ "Literal") :
    accepted (.subscript (.name b) es) = (recognized_generic_name b && acceptedList es) := by
  rw [accepted.eq_def]
  split
  · rename_i heq
    exact Expr.noConfusion heq
  · rename_i heq
    injection heq with heq1 heq2
    injection heq1 with heq1
    exact absurd heq1 hb
  · rename_i hnb heq
    injection heq with heq1 heq2
    injection heq1 with heq1
    subst heq1
    subst heq2
    rfl
  · rename_i heq
    exact Expr.noConfusion heq
  · rename_i h1 h2 h3 h4
    exact absurd rfl (h3 b es)

theorem accepted_sub_nonname {b : Expr} (es : List Expr) (hb : ∀ v, b ≠ Expr.name v) :
    accepted (.subscript b es) = false := by
  rw [accepted.eq_def]
  split
  · rename_i heq
    exact Expr.noConfusion heq
  · rename_i heq
    injection heq with heq1 heq2
    exact absurd heq1 (hb "Literal")
  · rename_i b2 es2 hnb heq
    injection heq with heq1 heq2
    exact absurd heq1 (hb b2)
  · rename_i heq
    exact Expr.noConfusion heq
  · rfl

theorem extract_ok_eq_accepted_aux :
    ∀ (N : Nat) (e : Expr), sizeOf e ≤ N → extractOk e = accepted e := by
  intro N
  induction N with
  | zero =>
    intro e he
    exact absurd he (by have := expr_sizeOf_pos e; omega)
  | succ N ih =>
    intro e he
    cases e with
    | name v =>
      rw [extractOk, extract_type_name, accepted_name]
      rfl
    | attrAccess o a =>
      rw [extractOk]
      have hx : extract_type (.attrAccess o a) = .error "Unexpected node in type definition" := by
        simp [extract_type]
      rw [hx, accepted.eq_def]
      rfl
    | simpleString raw =>
      rw [extractOk]
      have hx : extract_type (.simpleString raw) = .error "Unexpected node in type definition" := by
        simp [extract_type]
      rw [hx, accepted.eq_def]
      rfl
    | intLit n =>
      rw [extractOk]
      have hx : extract_type (.intLit n) = .error "Unexpected node in type definition" := by
        simp [extract_type]
      rw [hx, accepted.eq_def]
      rfl
    | dictLit =>
      rw [extractOk]
      have hx : extract_type .dictLit = .error "Unexpected node in type definition" := by
        simp [extract_type]
      rw [hx, accepted.eq_def]
      rfl
    | binop op l r =>
      cases op with
      | add =>
        rw [extractOk]
        have hx : extract_type (.binop .add l r) = .error "ensure_type BitOr" := by
          simp [extract_type]
        rw [hx, accepted.eq_def]
        rfl
      | bitOr =>
        rw [extractOk, extract_type_bitor, extract_union_eq, accepted_bitor]
        have hl := ih l (by simp only [Expr.binop.sizeOf_spec] at he; omega)
        have hr := ih r (by simp only [Expr.binop.sizeOf_spec] at he; omega)
        rw [extractOk] at hl hr
        cases hx : extract_type l with
        | error m =>
          rw [hx] at hl
          have hl2 : false = accepted l := hl
          rw [exceptBind_error, ← hl2]
          rfl
        | ok lt =>
          rw [hx] at hl
          have hl2 : true = accepted l := hl
          rw [exceptBind_ok, ← hl2, Bool.true_and]
          cases hy : extract_type r with
          | error m =>
            rw [hy] at hr
            have hr2 : false = accepted r := hr
            rw [exceptBind_error, ← hr2]
            rfl
          | ok rt =>
            rw [hy] at hr
            have hr2 : true = accepted r := hr
            rw [exceptBind_ok, ← hr2]
            rfl
    | subscript b es =>
      have hsizes : ∀ e2 ∈ es, sizeOf e2 ≤ N := by
        intro e2 he2
        have h1 := List.sizeOf_lt_of_mem he2
        have h2 := expr_sizeOf_pos b
        simp only [Expr.subscript.sizeOf_spec] at he
        omega
      have helem : ∀ e2 ∈ es, extractOk e2 = accepted e2 :=
        fun e2 he2 => ih e2 (hsizes e2 he2)
      rw [extractOk, extract_type_subscript, parse_generic_type.eq_def]
      split
      · rw [accepted_sub_literal]
        exact parse_literal_isSome es
      · rw [bind_pure_isSome, accepted_sub_name es (by decide), ptl_isSome es helem]
        rw [show recognized_generic_name "list" = true from rfl, Bool.true_and]
      · rw [bind_pure_isSome, accepted_sub_name es (by decide), ptl_isSome es helem]
        rw [show recognized_generic_name "List" = true from rfl, Bool.true_and]
      · rw [bind_pure_isSome, accepted_sub_name es (by decide), ptl_isSome es helem]
        rw [show recognized_generic_name "dict" = true from rfl, Bool.true_and]
      · rw [bind_pure_isSome, accepted_sub_name es (by decide), ptl_isSome es helem]
        rw [show recognized_generic_name "Dict" = true from rfl, Bool.true_and]
      · rw [bind_pure_isSome, accepted_sub_name es (by decide), ptl_isSome es helem]
        rw [show recognized_generic_name "Union" = true from rfl, Bool.true_and]
      · rw [bind_pure_isSome, accepted_sub_name es (by decide), ptl_isSome es helem]
        rw [show recognized_generic_name "Optional" = true from rfl, Bool.true_and]
      · rw [bind_pure_isSome, accepted_sub_name es (by decide), ptl_isSome es helem]
        rw [show recognized_generic_name "tuple" = true from rfl, Bool.true_and]
      · rw [bind_pure_isSome, accepted_sub_name es (by decide), ptl_isSome es helem]
        rw [show recognized_generic_name "Tuple" = true from rfl, Bool.true_and]
      · rename_i other h1 h2 h3 h4 h5 h6 h7 h8 h9
        rw [accepted_sub_name es h1]
        have hrec : recognized_generic_name other = false := by
          rw [recognized_generic_name]
          simp only [Bool.or_eq_false_iff, beq_eq_false_iff_ne, ne_eq]
          exact ⟨⟨⟨⟨⟨⟨⟨⟨h1, h2⟩, h3⟩, h4⟩, h5⟩, h6⟩, h7⟩, h8⟩, h9⟩
        rw [hrec, Bool.false_and]
        rfl
      · rename_i h1 h2 h3 h4 h5 h6 h7 h8 h9 h10
        rw [accepted_sub_nonname es h10]
        rfl

/-- C5 counterexample: `list[1]` is a subscripted generic whose base
identifier `list` is recognized, yet the extractor fails fatally on it —
success additionally requires every subscript argument to be accepted
recursively. -/
theorem recognized_generic_failure :
    recognizedGenericSubscript (.subscript (.name "list") [.intLit 1]) = true ∧
    (extract_type (.subscript (.name "list") [.intLit 1])).toOption = none := by
  constructor
  · rfl
  · simp only [extract_type, parse_generic_type, parse_types_list]
    rfl

/-- C5 (amended): the type extractor succeeds exactly on the recursively
accepted grammar: a simple identifier; a `Literal` subscript whose arguments
are all string literals; a `list`/`List`/`dict`/`Dict`/`Union`/`Optional`/
`tuple`/`Tuple` subscript whose arguments are all themselves accepted; or a
binary or-union of accepted operands.  Every other expression — including a
recognized-base subscript with an unaccepted argument — fails fatally. -/
theorem extract_ok_iff_accepted (e : Expr) : extractOk e = accepted e :=
  extract_ok_eq_accepted_aux (sizeOf e) e le_rfl

/-! ### C1: postorder emission order -/

/-- Reachability along the successor relation of the dependency graph. -/
def Reaches (adj : String → List String) : String → String → Prop :=
  Relation.ReflTransGen (fun a b => b ∈ adj a)

/-- A gray node: already marked visited but not yet emitted, i.e. on the DFS
call stack. -/
def Gray (s : List String × List String) (x : String) : Prop :=
  x ∈ s.1 ∧ x ∉ s.2

/-- The DFS state invariant: emitted nodes are visited, both lists are
duplicate-free, and every successor of an emitted node is emitted before
it. -/
def InvDfs (adj : String → List String) (s : List String × List String) : Prop :=
  (∀ x ∈ s.2, x ∈ s.1) ∧ s.1.Nodup ∧ s.2.Nodup ∧
    (∀ x ∈ s.2, ∀ y ∈ adj x, [y, x].Sublist s.2)

/-- The postcondition of one DFS visit: the invariant is maintained, the
visited set grows, the output grows by appending, the gray set shrinks, newly
emitted nodes were unvisited, and the visited node ends up emitted unless it
was already gray. -/
def NodePost (adj : String → List String) (s s' : List String × List String)
    (u : String) : Prop :=
  InvDfs adj s' ∧ (∀ x ∈ s.1, x ∈ s'.1) ∧ (∃ t2, s'.2 = s.2 ++ t2) ∧
    (∀ x, Gray s' x → Gray s x) ∧ (∀ x ∈ s'.2, x ∈ s.2 ∨ x ∉ s.1) ∧
    u ∈ s'.1 ∧ (u ∈ s'.2 ∨ Gray s u)

/-- The postcondition of a DFS sweep over a list of start nodes. -/
def ListPost (adj : String → List String) (s s' : List String × List String)
    (us : List String) : Prop :=
  InvDfs adj s' ∧ (∀ x ∈ s.1, x ∈ s'.1) ∧ (∃ t2, s'.2 = s.2 ++ t2) ∧
    (∀ x, Gray s' x → Gray s x) ∧ (∀ x ∈ s'.2, x ∈ s.2 ∨ x ∉ s.1) ∧
    (∀ c ∈ us, c ∈ s'.1 ∧ (c ∈ s'.2 ∨ Gray s c))

theorem foldl_dfsNode (adj : String → List String) (f : Nat) :
    ∀ (us : List String) (s : List String × List String),
      us.foldl (fun acc v => dfsNode adj f v acc) s = dfsList adj f us s := by
  intro us
  induction us with
  | nil => intro s; rfl
  | cons u us ih =>
    intro s
    rw [List.foldl_cons, dfsList]
    exact ih _

theorem dfsNode_succ (adj : String → List String) (f : Nat) (u : String)
    (s : List String × List String) :
    dfsNode adj (f + 1) u s =
      if u ∈ s.1 then s
      else ((dfsList adj f (adj u) (u :: s.1, s.2)).1,
            (dfsList adj f (adj u) (u :: s.1, s.2)).2 ++ [u]) := by
  rw [dfsNode, foldl_dfsNode]

theorem dfsList_spec_of_node (adj : String → List String) (D : Finset String)
    (f : Nat)
    (hnode : ∀ (u : String) (s : List String × List String),
      (D \ s.1.toFinset).card < f → u ∈ D → InvDfs adj s →
      (∀ g, Gray s g → Reaches adj g u) → NodePost adj s (dfsNode adj f u s) u) :
    ∀ (us : List String) (s : List String × List String),
      (D \ s.1.toFinset).card < f → (∀ c ∈ us, c ∈ D) → InvDfs adj s →
      (∀ g c, Gray s g → c ∈ us → Reaches adj g c) →
      ListPost adj s (dfsList adj f us s) us := by
  intro us
  induction us with
  | nil =>
    intro s hcard hus hinv hgray
    rw [dfsList]
    exact ⟨hinv, fun x hx => hx, ⟨[], (List.append_nil _).symm⟩, fun x hx => hx,
      fun x hx => Or.inl hx, by simp⟩
  | cons u us ih =>
    intro s hcard hus hinv hgray
    rw [dfsList]
    have np := hnode u s hcard (hus u (List.mem_cons_self u us)) hinv
      (fun g hg => hgray g u hg (List.mem_cons_self u us))
    obtain ⟨inv1, mono1, ⟨t2, happ1⟩, gray1, new1, humem, huout⟩ := np
    have hsubf : s.1.toFinset ⊆ (dfsNode adj f u s).1.toFinset := by
      intro x hx
      rw [List.mem_toFinset] at hx ⊢
      exact mono1 x hx
    have hcard1 : (D \ (dfsNode adj f u s).1.toFinset).card < f :=
      lt_of_le_of_lt (Finset.card_le_card
        (Finset.sdiff_subset_sdiff (Finset.Subset.refl D) hsubf)) hcard
    have lp := ih (dfsNode adj f u s) hcard1
      (fun c hc => hus c (List.mem_cons_of_mem _ hc)) inv1
      (fun g c hg hc => hgray g c (gray1 g hg) (List.mem_cons_of_mem _ hc))
    obtain ⟨inv2, mono2, ⟨t3, happ2⟩, gray2, new2, child2⟩ := lp
    refine ⟨inv2, fun x hx => mono2 x (mono1 x hx),
      ⟨t2 ++ t3, by rw [happ2, happ1, List.append_assoc]⟩,
      fun x hx => gray1 x (gray2 x hx), ?_, ?_⟩
    · intro x hx
      rcases new2 x hx with hx2 | hx2
      · rcases new1 x hx2 with hx3 | hx3
        · exact Or.inl hx3
        · exact Or.inr hx3
      · exact Or.inr (fun hmem => hx2 (mono1 x hmem))
    · intro c hc
      rcases List.mem_cons.mp hc with hc | hc
      · subst hc
        refine ⟨mono2 c humem, ?_⟩
        rcases huout with h | h
        · refine Or.inl ?_
          rw [happ2]
          exact List.mem_append_left _ h
        · exact Or.inr h
      · obtain ⟨hin, hout⟩ := child2 c hc
        refine ⟨hin, ?_⟩
        rcases hout with h | h
        · exact Or.inl h
        · exact Or.inr (gray1 c h)

theorem dfsNode_spec (adj : String → List String) (D : Finset String)
    (hadjD : ∀ a b, b ∈ adj a → b ∈ D)
    (hacyc : ∀ a b, b ∈ adj a → ¬ Reaches adj b a) :
    ∀ (f : Nat) (u : String) (s : List String × List String),
      (D \ s.1.toFinset).card < f → u ∈ D → InvDfs adj s →
      (∀ g, Gray s g → Reaches adj g u) → NodePost adj s (dfsNode adj f u s) u := by
  intro f
  induction f with
  | zero =>
    intro u s hcard
    exact absurd hcard (Nat.not_lt_zero _)
  | succ f ihf =>
    intro u s hcard hu hinv hgray
    rw [dfsNode_succ]
    by_cases humem : u ∈ s.1
    · rw [if_pos humem]
      refine ⟨hinv, fun x hx => hx, ⟨[], (List.append_nil _).symm⟩, fun x hx => hx,
        fun x hx => Or.inl hx, humem, ?_⟩
      by_cases houtm : u ∈ s.2
      · exact Or.inl houtm
      · exact Or.inr ⟨humem, houtm⟩
    · rw [if_neg humem]
      obtain ⟨hout_vis, hnd_vis, hnd_out, hI5⟩ := hinv
      have hinv1 : InvDfs adj (u :: s.1, s.2) :=
        ⟨fun x hx => List.mem_cons_of_mem _ (hout_vis x hx),
          List.nodup_cons.mpr ⟨humem, hnd_vis⟩, hnd_out, hI5⟩
      have hcard1 : (D \ (u :: s.1, s.2).1.toFinset).card < f := by
        have h1 : (u :: s.1).toFinset = insert u s.1.toFinset := List.toFinset_cons
        have humem2 : u ∈ D \ s.1.toFinset := by
          rw [Finset.mem_sdiff, List.mem_toFinset]
          exact ⟨hu, humem⟩
        have h2 : D \ (u :: s.1).toFinset = (D \ s.1.toFinset).erase u := by
          rw [h1, Finset.sdiff_insert]
        have h3 := Finset.card_erase_of_mem humem2
        have h4 : 0 < (D \ s.1.toFinset).card := Finset.card_pos.mpr ⟨u, humem2⟩
        show (D \ (u :: s.1).toFinset).card < f
        rw [h2, h3]
        omega
      have hgray1 : ∀ g c, Gray (u :: s.1, s.2) g → c ∈ adj u → Reaches adj g c := by
        intro g c hg hc
        rcases List.mem_cons.mp hg.1 with hgu | hgs
        · subst hgu
          exact Relation.ReflTransGen.single hc
        · exact Relation.ReflTransGen.tail (hgray g ⟨hgs, hg.2⟩) hc
      have lp := dfsList_spec_of_node adj D f ihf (adj u) (u :: s.1, s.2) hcard1
        (fun c hc => hadjD u c hc) hinv1 hgray1
      obtain ⟨⟨tvis, tnd_vis, tnd_out, tI5⟩, mono1, ⟨t2, happ⟩, gray1, new1, child1⟩ := lp
      have hunott : u ∉ (dfsList adj f (adj u) (u :: s.1, s.2)).2 := by
        intro hmem
        rcases new1 u hmem with h | h
        · exact humem (hout_vis u h)
        · exact h (List.mem_cons_self u s.1)
      refine ⟨⟨?_, tnd_vis, ?_, ?_⟩, ?_, ?_, ?_, ?_, ?_, ?_⟩
      · intro x hx
        rcases List.mem_append.mp hx with hx | hx
        · exact tvis x hx
        · rw [List.mem_singleton] at hx
          subst hx
          exact mono1 x (List.mem_cons_self x s.1)
      · rw [List.nodup_append]
        refine ⟨tnd_out, List.nodup_singleton u, ?_⟩
        intro x hx hx2
        rw [List.mem_singleton] at hx2
        subst hx2
        exact hunott hx
      · intro x hx y hy
        rcases List.mem_append.mp hx with hx | hx
        · exact (tI5 x hx y hy).trans (List.sublist_append_left _ [u])
        · rw [List.mem_singleton] at hx
          rw [hx]
          rw [hx] at hy
          obtain ⟨hyvis, hcase⟩ := child1 y hy
          rcases hcase with hyout | hygray
          · exact List.Sublist.append (List.singleton_sublist.mpr hyout)
              (List.Sublist.refl [u])
          · exfalso
            rcases List.mem_cons.mp hygray.1 with hyu | hys
            · rw [hyu] at hy
              exact hacyc u u hy Relation.ReflTransGen.refl
            · exact hacyc u y hy (hgray y ⟨hys, hygray.2⟩)
      · intro x hx
        exact mono1 x (List.mem_cons_of_mem _ hx)
      · exact ⟨t2 ++ [u], by rw [happ, List.append_assoc]⟩
      · intro x hx
        obtain ⟨hxvis, hxout⟩ := hx
        have hxne : x ≠ u := by
          intro h
          apply hxout
          rw [h]
          exact List.mem_append_right _ (List.mem_singleton_self u)
        have hxout2 : x ∉ (dfsList adj f (adj u) (u :: s.1, s.2)).2 :=
          fun h => hxout (List.mem_append_left _ h)
        have hgray_t := gray1 x ⟨hxvis, hxout2⟩
        rcases List.mem_cons.mp hgray_t.1 with h | h
        · exact absurd h hxne
        · exact ⟨h, hgray_t.2⟩
      · intro x hx
        rcases List.mem_append.mp hx with hx | hx
        · rcases new1 x hx with h | h
          · exact Or.inl h
          · exact Or.inr (fun hmem => h (List.mem_cons_of_mem _ hmem))
        · rw [List.mem_singleton] at hx
          subst hx
          exact Or.inr humem
      · exact mono1 u (List.mem_cons_self u s.1)
      · exact Or.inl (List.mem_append_right _ (List.mem_singleton_self u))

theorem mem_adjOf {es : List (String × String)} {a b : String} :
    b ∈ adjOf es a ↔ (a, b) ∈ es := by
  rw [adjOf]
  constructor
  · intro h
    rw [List.mem_map] at h
    obtain ⟨e, he, hb⟩ := h
    rw [List.mem_filter] at he
    obtain ⟨he1, he2⟩ := he
    have ha : e.1 = a := by simpa using he2
    have : e = (a, b) := by
      cases e
      simp only at ha hb
      rw [ha, hb]
    exact this ▸ he1
  · intro h
    rw [List.mem_map]
    refine ⟨(a, b), ?_, rfl⟩
    rw [List.mem_filter]
    exact ⟨h, by simp⟩

/-- The three facts about `dfs_postorder_nodes` over a closed acyclic graph:
the postorder list has no duplicates, covers every node, and emits every
successor of an emitted node strictly before it. -/
theorem dfsPostorderNodes_spec (g : Graph)
    (hclosed : ∀ e ∈ g.edges, e.1 ∈ g.nodes ∧ e.2 ∈ g.nodes)
    (hacyc : ∀ a b, b ∈ adjOf g.edges a → ¬ Reaches (adjOf g.edges) b a) :
    (dfsPostorderNodes g).Nodup ∧
    (∀ n ∈ g.nodes, n ∈ dfsPostorderNodes g) ∧
    (∀ x ∈ dfsPostorderNodes g, ∀ y ∈ adjOf g.edges x,
      [y, x].Sublist (dfsPostorderNodes g)) := by
  have hadjD : ∀ a b, b ∈ adjOf g.edges a → b ∈ g.nodes.toFinset := by
    intro a b hb
    rw [List.mem_toFinset]
    exact (hclosed (a, b) (mem_adjOf.mp hb)).2
  have hinv0 : InvDfs (adjOf g.edges) (([] : List String), ([] : List String)) :=
    ⟨fun x hx => absurd hx (List.not_mem_nil x), List.nodup_nil, List.nodup_nil,
      fun x hx => absurd hx (List.not_mem_nil x)⟩
  have hcard0 : (g.nodes.toFinset \ (([] : List String), ([] : List String)).1.toFinset).card <
      g.nodes.length + 1 := by
    show (g.nodes.toFinset \ ([] : List String).toFinset).card < g.nodes.length + 1
    rw [List.toFinset_nil, Finset.sdiff_empty]
    exact Nat.lt_succ_of_le (List.toFinset_card_le g.nodes)
  have lp := dfsList_spec_of_node (adjOf g.edges) g.nodes.toFinset (g.nodes.length + 1)
    (dfsNode_spec (adjOf g.edges) g.nodes.toFinset hadjD hacyc (g.nodes.length + 1))
    g.nodes ([], []) hcard0 (fun c hc => List.mem_toFinset.mpr hc) hinv0
    (fun gg c hg _ => absurd hg.1 (List.not_mem_nil gg))
  obtain ⟨⟨_, _, hnd_out, hI5⟩, _, _, _, _, child⟩ := lp
  refine ⟨hnd_out, ?_, ?_⟩
  · intro n hn
    rcases (child n hn).2 with h | h
    · exact h
    · exact absurd h.1 (List.not_mem_nil n)
  · intro x hx y hy
    exact hI5 x hx y hy

theorem parse_nodup (g : Graph) (models : List ClassDecl)
    (hnd : (dfsPostorderNodes g).Nodup) : (parse g models).Nodup := by
  rw [parse]
  refine hnd.filterMap ?_
  intro a a2 b hb hb2
  rw [Option.mem_def] at hb hb2
  have h1 := dictGet_models_name hb
  have h2 := dictGet_models_name hb2
  rw [← h1, ← h2]

theorem sublist_getElem_lt {α : Type} :
    ∀ (l : List α) (i j : Nat) (a b : α), l.Nodup → l[i]? = some a → l[j]? = some b →
      [b, a].Sublist l → j < i := by
  intro l
  induction l with
  | nil =>
    intro i j a b _ hi
    rw [List.getElem?_nil] at hi
    exact absurd hi (by simp)
  | cons c t ih =>
    intro i j a b hnd hi hj hsub
    have hndc := List.nodup_cons.mp hnd
    cases i with
    | zero =>
      rw [List.getElem?_cons_zero] at hi
      injection hi with hi
      exfalso
      rw [hi] at hndc
      cases hsub with
      | cons _ h =>
        exact hndc.1 (h.subset (by simp))
      | cons₂ _ h =>
        exact hndc.1 (List.singleton_sublist.mp h)
    | succ i =>
      cases j with
      | zero => exact Nat.succ_pos i
      | succ j =>
        rw [List.getElem?_cons_succ] at hi hj
        cases hsub with
        | cons _ h => exact Nat.succ_lt_succ (ih i j a b hndc.2 hi hj h)
        | cons₂ _ h =>
          exfalso
          obtain ⟨hlt, hb⟩ := List.getElem?_eq_some_iff.mp hj
          exact hndc.1 (hb ▸ List.getElem_mem hlt)

/-- C1: for every acyclic dependency graph produced by a run (its edges closed
over its nodes, as `networkx.add_edge` guarantees), the output of `parse` is
ordered so that whenever the class at position `i` depends on the class at
position `j` (an edge from the former's name to the latter's in the graph),
`j < i`: every dependency is emitted strictly before its dependent. -/
theorem parse_postorder_ordered (g : Graph) (models : List ClassDecl)
    (hclosed : ∀ e ∈ g.edges, e.1 ∈ g.nodes ∧ e.2 ∈ g.nodes)
    (hacyc : ∀ a b, b ∈ adjOf g.edges a → ¬ Reaches (adjOf g.edges) b a)
    (i j : Nat) (cx cy : ClassDecl)
    (hi : (parse g models)[i]? = some cx)
    (hj : (parse g models)[j]? = some cy)
    (hedge : (cx.name, cy.name) ∈ g.edges) :
    j < i := by
  obtain ⟨hnd, hall, hord⟩ := dfsPostorderNodes_spec g hclosed hacyc
  have hxmem : cx ∈ parse g models := by
    obtain ⟨hlt, hx⟩ := List.getElem?_eq_some_iff.mp hi
    exact hx ▸ List.getElem_mem hlt
  have hymem : cy ∈ parse g models := by
    obtain ⟨hlt, hy⟩ := List.getElem?_eq_some_iff.mp hj
    exact hy ▸ List.getElem_mem hlt
  rw [parse] at hxmem hymem
  obtain ⟨nx, hnx, hfx⟩ := List.mem_filterMap.mp hxmem
  obtain ⟨ny, hny, hfy⟩ := List.mem_filterMap.mp hymem
  have hnxname : cx.name = nx := dictGet_models_name hfx
  have hnyname : cy.name = ny := dictGet_models_name hfy
  have hfx2 : dictGet (models_by_name models) cx.name = some cx := by
    rw [hnxname]
    exact hfx
  have hfy2 : dictGet (models_by_name models) cy.name = some cy := by
    rw [hnyname]
    exact hfy
  have hyadj : cy.name ∈ adjOf g.edges cx.name := mem_adjOf.mpr hedge
  have hsubn : [cy.name, cx.name].Sublist (dfsPostorderNodes g) := by
    apply hord
    · rw [hnxname]
      exact hnx
    · exact hyadj
  have hmap : List.filterMap (fun n => dictGet (models_by_name models) n)
      [cy.name, cx.name] = [cy, cx] := by
    rw [List.filterMap_cons, hfy2, List.filterMap_cons, hfx2, List.filterMap_nil]
  have hsub2 : [cy, cx].Sublist (parse g models) := by
    rw [parse, ← hmap]
    exact hsubn.filterMap _
  exact sublist_getElem_lt (parse g models) i j cx cy (parse_nodup g models hnd) hi hj hsub2

/-- A decidable sufficient condition for acyclicity: a rank function strictly
decreasing along every edge. -/
theorem acyclic_of_rank (es : List (String × String)) (pos : String → Nat)
    (h : ∀ e ∈ es, pos e.2 < pos e.1) :
    ∀ a b, b ∈ adjOf es a → ¬ Reaches (adjOf es) b a := by
  have hstep : ∀ x y, y ∈ adjOf es x → pos y < pos x :=
    fun x y hy => h (x, y) (mem_adjOf.mp hy)
  have hreach : ∀ x y, Reaches (adjOf es) x y → pos y ≤ pos x := by
    intro x y hr
    induction hr with
    | refl => exact le_rfl
    | tail h1 h2 ih => exact le_trans (le_of_lt (hstep _ _ h2)) ih
  intro a b hb hr
  have h1 := hstep a b hb
  have h2 := hreach b a hr
  omega

/-- The synthetic diamond: `D` depends on `B` and `C`, both depend on `A`. -/
def diamondGraph : Graph :=
  ⟨["A", "B", "C", "D"], [("D", "B"), ("D", "C"), ("B", "A"), ("C", "A")]⟩

/-- The fully extracted models of the diamond. -/
def diamondModels : List ClassDecl :=
  [⟨"A", ["BaseModel"], [], none⟩, ⟨"B", ["A"], [], none⟩,
   ⟨"C", ["A"], [], none⟩, ⟨"D", ["B", "C"], [], none⟩]

/-- Rank function witnessing the diamond's acyclicity. -/
def diamondRank (s : String) : Nat :=
  if s = "A" then 0 else if s = "D" then 2 else 1

/-- C1 witness: on the diamond, `parse` emits `[A, B, C, D]`; the theorem
applied to the edge `D -> B` places `B` (index 1) before `D` (index 3). -/
theorem parse_postorder_ordered_witness :
    ((("D", "B") ∈ diamondGraph.edges) ∧
      (parse diamondGraph diamondModels)[3]? = some ⟨"D", ["B", "C"], [], none⟩ ∧
      (parse diamondGraph diamondModels)[1]? = some ⟨"B", ["A"], [], none⟩) ∧
    1 < 3 :=
  ⟨⟨by decide, rfl, rfl⟩,
    parse_postorder_ordered diamondGraph diamondModels (by decide)
      (acyclic_of_rank diamondGraph.edges diamondRank (by decide)) 3 1
      ⟨"D", ["B", "C"], [], none⟩ ⟨"B", ["A"], [], none⟩ rfl rfl (by decide)⟩

end Pydantic2zod
